import Mathlib

/-!
# golib-core: the in-memory LRU cache with TTL (`pkg/cache/lru_cache.go`)

A shallow embedding of `LRUCache` and of the operations `NewLRUCache`, `Set`, `Get`
and `Delete`, followed by the validators of `pkg/datavalidator/datavalidator.go` and the
job manager of `pkg/cronmanager/cronmanager.go`.

* `time.Time` and `time.Duration` are integers (nanoseconds on one clock); the instant
  read by `time.Now()` is an explicit argument of every operation that reads it.
* `map[string]time.Time` is an association list with at most one entry per key.
* `*lru.Cache` (package `github.com/hashicorp/golang-lru`) is a list of entries ordered
  from most recently used to least recently used, together with its capacity.
* The mutex is not modelled: the operations below are the critical sections, executed
  one after the other.
* `NewLRUCache`, `Set`, `Get` and `Delete` are the operations with an initialised logging
  sink, whose records do not touch the cache and are left out; the namespace `Logged`
  has the same operations together with the global logger of `pkg/logger/logger.go`,
  which may be nil.
* An `interface{}` is a `Value`, by its dynamic type; a call that may panic returns a
  `Completion`.  The packages `reflect` and `regexp` of the standard library and the
  scheduler `cron.Cron` are modelled by what the code uses of them.
-/

namespace Golib

/-- An instant (`time.Time`), in nanoseconds. -/
abbrev Time := Int

/-- A span of time (`time.Duration`), in nanoseconds; may be zero or negative. -/
abbrev Duration := Int

deriving instance DecidableEq for Except

/-! ## Go maps with string keys -/

/-- The read `m[key]` of a Go map, with its `ok` flag as the option. -/
def mapGet {β : Type} (m : List (String × β)) (key : String) : Option β :=
  match m with
  | [] => none
  | e :: rest => if e.1 = key then some e.2 else mapGet rest key

/-- The builtin `delete(m, key)`. -/
def mapDelete {β : Type} (m : List (String × β)) (key : String) : List (String × β) :=
  m.filter (fun e => decide (e.1 ≠ key))

/-- The assignment `m[key] = v`. -/
def mapSet {β : Type} (m : List (String × β)) (key : String) (v : β) : List (String × β) :=
  (key, v) :: mapDelete m key

/-- The keys of a map. -/
def mapKeys {β : Type} (m : List (String × β)) : List String :=
  m.map Prod.fst

/-! ## The recency store -/

namespace lru

/-- Modelled from the spec: the recency store `lru.Cache` of the dependency
`github.com/hashicorp/golang-lru`, whose source is not part of the repository.  The spec
describes it as an ordered container of at most `capacity` keys, ordered by most recent
access, in which insertion and lookup both promote a key to most recent, and which evicts
exactly one entry, the least recently used one, when an insertion exceeds the capacity.
`items` lists the entries from most recently used (head) to least recently used (last). -/
structure Cache (V : Type) where
  size : Nat
  items : List (String × V)
deriving DecidableEq, Repr

/-- Modelled from the spec: `lru.New(size)`, which fails for `size ≤ 0` and otherwise
gives an empty store of that capacity. -/
def New {V : Type} (size : Int) : Option (Cache V) :=
  if size ≤ 0 then none else some { size := size.toNat, items := [] }

/-- The keys of the store, most recently used first. -/
def Cache.keys {V : Type} (c : Cache V) : List String :=
  mapKeys c.items

/-- Modelled from the spec: `Len`, the number of entries of the store. -/
def Cache.Len {V : Type} (c : Cache V) : Nat :=
  c.items.length

/-- Modelled from the spec: `Add(key, value)`.  A key already in the store gets the new
value and becomes the most recently used; a new key is inserted as most recently used and,
if the store now exceeds its capacity, the least recently used entry is evicted.  The
boolean tells whether an eviction took place. -/
def Cache.Add {V : Type} (c : Cache V) (key : String) (value : V) : Cache V × Bool :=
  match mapGet c.items key with
  | some _ => ({ c with items := (key, value) :: mapDelete c.items key }, false)
  | none =>
    let items := (key, value) :: c.items
    if items.length > c.size then ({ c with items := items.dropLast }, true)
    else ({ c with items := items }, false)

/-- Modelled from the spec: `Get(key)`.  A key in the store becomes the most recently used
and its value is returned; a key not in the store leaves the store as it is. -/
def Cache.Get {V : Type} (c : Cache V) (key : String) : Cache V × Option V :=
  match mapGet c.items key with
  | some v => ({ c with items := (key, v) :: mapDelete c.items key }, some v)
  | none => (c, none)

/-- Modelled from the spec: `Remove(key)`, which takes the key out of the store if it is
there. -/
def Cache.Remove {V : Type} (c : Cache V) (key : String) : Cache V :=
  { c with items := mapDelete c.items key }

end lru

/-! ## The cache -/

/-- The struct `LRUCache`: the recency store `cache`, the expiry index `ttl` and the
default duration `expiryDur` given at construction. -/
structure LRUCache (V : Type) where
  cache : lru.Cache V
  ttl : List (String × Time)
  expiryDur : Duration
deriving DecidableEq, Repr

/-- The constructor `NewLRUCache(size, ttl)`: `none` stands for the pair of a nil cache and
the error of `lru.New`. -/
def NewLRUCache {V : Type} (size : Int) (ttl : Duration) : Option (LRUCache V) :=
  match lru.New size with
  | none => none
  | some cache => some { cache := cache, ttl := [], expiryDur := ttl }

namespace LRUCache

/-- The method `Set(key, value, expiration)` executed at the instant `now`. -/
def Set {V : Type} (c : LRUCache V) (now : Time) (key : String) (value : V)
    (expiration : Duration) : LRUCache V :=
  { c with
    cache := (c.cache.Add key value).1
    ttl := mapSet c.ttl key (now + expiration) }

/-- The method `Get(key)` executed at the instant `now`: the state it leaves and the
result, where `time.Now().After(expiryTime)` is `now > expiryTime`. -/
def Get {V : Type} (c : LRUCache V) (now : Time) (key : String) :
    LRUCache V × Except String V :=
  match mapGet c.ttl key with
  | none => (c, .error "key not found")
  | some expiryTime =>
    if now > expiryTime then
      ({ c with cache := c.cache.Remove key, ttl := mapDelete c.ttl key },
        .error "cache expired")
    else
      match c.cache.Get key with
      | (cache, some value) => ({ c with cache := cache }, .ok value)
      | (cache, none) => ({ c with cache := cache }, .error "key not found")

/-- The method `Delete(key)`. -/
def Delete {V : Type} (c : LRUCache V) (key : String) : LRUCache V :=
  { c with cache := c.cache.Remove key, ttl := mapDelete c.ttl key }

end LRUCache

/-! ## Sequences of calls -/

/-- A call of one of the three methods. -/
inductive Op (V : Type) where
  | set (key : String) (value : V) (expiration : Duration)
  | get (key : String)
  | delete (key : String)
deriving DecidableEq, Repr

/-- The key that a call is about. -/
def Op.key {V : Type} : Op V → String
  | .set key _ _ => key
  | .get key => key
  | .delete key => key

/-- A call together with the instant at which it is executed. -/
abbrev Call (V : Type) := Time × Op V

/-- The state after one call. -/
def step {V : Type} (c : LRUCache V) (call : Call V) : LRUCache V :=
  match call.2 with
  | .set key value expiration => c.Set call.1 key value expiration
  | .get key => (c.Get call.1 key).1
  | .delete key => c.Delete key

/-- The result of one call: the result of `Get`, nothing for `Set` and `Delete`. -/
def outcome {V : Type} (c : LRUCache V) (call : Call V) : Option (Except String V) :=
  match call.2 with
  | .get key => some (c.Get call.1 key).2
  | _ => none

/-- The state after a sequence of calls. -/
def run {V : Type} (c : LRUCache V) (calls : List (Call V)) : LRUCache V :=
  calls.foldl step c

/-- The calls of a sequence, each with its result. -/
def history {V : Type} (c : LRUCache V) : List (Call V) → List (Call V × Option (Except String V))
  | [] => []
  | call :: rest => (call, outcome c call) :: history (step c call) rest

/-- The arguments of a `Set` call and the instant at which it is executed. -/
structure SetCall (V : Type) where
  now : Time
  key : String
  value : V
  expiration : Duration
deriving DecidableEq, Repr

/-- A `Set` call as a call. -/
def SetCall.toCall {V : Type} (s : SetCall V) : Call V :=
  (s.now, .set s.key s.value s.expiration)

/-- A call with its result leaves the entry of `key` alone: it is no `Set` and no `Delete`
of that key, and no `Get` of that key that returned the Expired outcome. -/
def KeepsEntry {V : Type} (key : String) (ev : Call V × Option (Except String V)) : Prop :=
  ∀ t : Time, (∀ (v : V) (d : Duration), ev.1 ≠ (t, Op.set key v d)) ∧
    ev.1 ≠ (t, Op.delete key) ∧
    ev ≠ ((t, Op.get key), some (.error "cache expired"))

/-- The states reachable from a freshly constructed cache. -/
def Reachable {V : Type} (c : LRUCache V) : Prop :=
  ∃ (size : Int) (ttl : Duration) (c0 : LRUCache V) (calls : List (Call V)),
    NewLRUCache size ttl = some c0 ∧ c = run c0 calls

/-! ## The logging sink (`pkg/logger/logger.go`) -/

/-- What a Go call comes to: the goroutine panics, or the call returns a result. -/
inductive Completion (α : Type) where
  | panicked
  | returned (a : α)
deriving DecidableEq, Repr

/-- Sequencing of two calls: a panic of the first is a panic of the whole. -/
def Completion.bind {α β : Type} (x : Completion α) (f : α → Completion β) : Completion β :=
  match x with
  | .panicked => .panicked
  | .returned a => f a

namespace logger

/-- A record handed to the sink: its level, its message and the names of its fields (the
values of the fields are not inspected by anything here). -/
structure Record where
  level : String
  msg : String
  fields : List String
deriving DecidableEq, Repr

/-- The global variable `Logger *logrus.Logger`: `none` is the nil pointer it holds until
`InitializeLogger` is called, `some records` an initialised logger together with the
records it has been given so far. -/
abbrev Logger := Option (List Record)

/-- The function `InitializeLogger`, which stores a new logger in the global variable. -/
def InitializeLogger (_ : Logger) : Logger :=
  some []

/-- Modelled from the spec: `Logger.WithFields(fields).Debug(msg)` and its siblings of the
dependency `github.com/sirupsen/logrus`, whose source is not part of the repository.  The
spec describes the sink as accepting leveled structured records without failing the
caller; that is what an initialised logger does.  A nil `*logrus.Logger` is no sink:
`WithFields` reads the logger through the nil pointer, a run-time panic in Go. -/
def emit (l : Logger) (r : Record) : Completion Logger :=
  match l with
  | none => .panicked
  | some records => .returned (some (records ++ [r]))

/-- The function `Debug(msg, fields)`. -/
def Debug (l : Logger) (msg : String) (fields : List String) : Completion Logger :=
  emit l { level := "debug", msg := msg, fields := fields }

/-- The function `Info(msg, fields)`. -/
def Info (l : Logger) (msg : String) (fields : List String) : Completion Logger :=
  emit l { level := "info", msg := msg, fields := fields }

/-- The function `Warn(msg, fields)`. -/
def Warn (l : Logger) (msg : String) (fields : List String) : Completion Logger :=
  emit l { level := "warning", msg := msg, fields := fields }

/-- The function `Error(msg, fields)`. -/
def Error (l : Logger) (msg : String) (fields : List String) : Completion Logger :=
  emit l { level := "error", msg := msg, fields := fields }

end logger

/-! ## The cache operations with their calls to the logger -/

namespace Logged

/-- The constructor `NewLRUCache(size, ttl)` with the global logger `l`: the logger
afterwards and the result, or a panic. -/
def NewLRUCache {V : Type} (l : logger.Logger) (size : Int) (ttl : Duration) :
    Completion (logger.Logger × Option (LRUCache V)) :=
  match lru.New size with
  | none =>
    (logger.Error l "Failed to initialize LRU cache" ["error"]).bind fun l1 =>
      .returned (l1, none)
  | some cache =>
    (logger.Info l "LRU cache initialized" ["size", "ttl"]).bind fun l1 =>
      .returned (l1, some { cache := cache, ttl := [], expiryDur := ttl })

/-- The method `Set(key, value, expiration)` executed at the instant `now` with the global
logger `l`. -/
def Set {V : Type} (l : logger.Logger) (c : LRUCache V) (now : Time) (key : String)
    (value : V) (expiration : Duration) : Completion (logger.Logger × LRUCache V) :=
  let c1 : LRUCache V := { c with cache := (c.cache.Add key value).1 }
  let c2 : LRUCache V := { c1 with ttl := mapSet c1.ttl key (now + expiration) }
  (logger.Debug l "Cache set in LRU" ["key", "expiration"]).bind fun l1 =>
    .returned (l1, c2)

/-- The method `Get(key)` executed at the instant `now` with the global logger `l`. -/
def Get {V : Type} (l : logger.Logger) (c : LRUCache V) (now : Time) (key : String) :
    Completion (logger.Logger × LRUCache V × Except String V) :=
  match mapGet c.ttl key with
  | none =>
    (logger.Warn l "Cache miss in LRU" ["key"]).bind fun l1 =>
      .returned (l1, c, .error "key not found")
  | some expiryTime =>
    if now > expiryTime then
      let c1 : LRUCache V := { c with cache := c.cache.Remove key }
      let c2 : LRUCache V := { c1 with ttl := mapDelete c1.ttl key }
      (logger.Warn l "Cache expired in LRU" ["key"]).bind fun l1 =>
        .returned (l1, c2, .error "cache expired")
    else
      match c.cache.Get key with
      | (cache, none) =>
        (logger.Warn l "Cache miss in LRU" ["key"]).bind fun l1 =>
          .returned (l1, { c with cache := cache }, .error "key not found")
      | (cache, some value) =>
        (logger.Debug l "Cache retrieved from LRU" ["key"]).bind fun l1 =>
          .returned (l1, { c with cache := cache }, .ok value)

/-- The method `Delete(key)` with the global logger `l`. -/
def Delete {V : Type} (l : logger.Logger) (c : LRUCache V) (key : String) :
    Completion (logger.Logger × LRUCache V) :=
  let c1 : LRUCache V := { c with cache := c.cache.Remove key }
  let c2 : LRUCache V := { c1 with ttl := mapDelete c1.ttl key }
  (logger.Debug l "Cache deleted from LRU" ["key"]).bind fun l1 =>
    .returned (l1, c2)

end Logged

/-- The states the operations are meant to work on: a positive capacity that the recency
store does not exceed, no key twice in either structure, and every key of the recency
store also in the expiry index.  Every reachable state is of this kind. -/
structure WellFormed {V : Type} (c : LRUCache V) : Prop where
  size_pos : 0 < c.cache.size
  len_le : c.cache.Len ≤ c.cache.size
  cache_nodup : c.cache.keys.Nodup
  ttl_nodup : (mapKeys c.ttl).Nodup
  cache_sub : ∀ k, k ∈ c.cache.keys → k ∈ mapKeys c.ttl

/-! ## Dynamic values and reflection (`pkg/datavalidator/datavalidator.go`) -/

/-- A Go value held in an `interface{}`, by its dynamic type: the nil interface, a `bool`,
an `int`, an `int64`, a `float64` (by its bits), a `string`, a struct given by its fields
in order (name, `PkgPath`, value; as in `reflect.StructField` the `PkgPath` is empty
exactly for an exported field), or a pointer (`none` is the nil pointer).  The value of an
embedded field of a struct, the field for which `reflect.StructField` has `Anonymous` set,
is marked by `embedded`; the mark occurs only there. -/
inductive Value where
  | nil
  | bool (b : Bool)
  | int (n : Int)
  | int64 (n : Int)
  | float64 (bits : Nat)
  | string (s : String)
  | struct (fields : List (String × String × Value))
  | ptr (elem : Option Value)
  | embedded (v : Value)

/-- The value without the mark of an embedded field. -/
def Value.unembed : Value → Value
  | .embedded v => v
  | v => v

mutual

/-- How deep structs are nested in a value. -/
def Value.depth : Value → Nat
  | .struct fields => depthFields fields + 1
  | .ptr (some v) => v.depth
  | .embedded v => v.depth
  | _ => 0

/-- How deep structs are nested in the values of a list of fields. -/
def depthFields : List (String × String × Value) → Nat
  | [] => 0
  | field :: rest => max (depthField field) (depthFields rest)

/-- How deep structs are nested in the value of a field. -/
def depthField : String × String × Value → Nat
  | (_, _, v) => v.depth

end

/-- An `error`: `none` is nil, `some msg` the error made by `errors.New(msg)`. -/
abbrev GoError := Option String

namespace reflect

/-- Modelled from the spec: package `reflect` of the Go standard library, on which the spec
is silent; this is its documented behaviour.  `reflect.ValueOf(data)` followed by `Elem()`
when the kind is `Ptr`, as at the head of `ValidateStruct`; `none` is the zero
`reflect.Value`, which `ValueOf(nil)` and the `Elem()` of a nil pointer give. -/
def valueOfElem (data : Value) : Option Value :=
  match data with
  | .nil => none
  | .ptr elem => elem
  | v => some v

/-- The fields one level further down: the fields of the structs that are embedded, by
value or through a non-nil pointer, in the fields of a level. -/
def promoted (level : List (String × String × Value)) : List (String × String × Value) :=
  level.flatMap fun field =>
    match field.2.2 with
    | .embedded (.struct inner) => inner
    | .embedded (.ptr (some (.struct inner))) => inner
    | _ => []

/-- Whether a level has an embedded field that is a nil pointer. -/
def hasNilEmbedded (level : List (String × String × Value)) : Bool :=
  level.any fun field =>
    match field.2.2 with
    | .embedded (.ptr none) => true
    | _ => false

/-- Modelled from the spec: the search of `FieldByName` (standard library) below a level of
fields none of which has the name, one level of embedding at a time: a level with exactly
one field of the name gives that field, a level with several gives none (the name is
ambiguous), a level with none is followed by the next.  Behind an embedded nil pointer the
fields are not known here, and a search that would have to look there is given as a panic,
which it is in Go when the field is found there.  The first argument bounds the number of
levels; `fieldByNameIn` gives it the nesting depth, below which there are no fields. -/
def descend (name : String) :
    Nat → List (String × String × Value) → Completion (Option (String × Value))
  | 0, level => if hasNilEmbedded level then .panicked else .returned none
  | fuel + 1, level =>
    if hasNilEmbedded level then .panicked
    else
      match (promoted level).filter (fun field => decide (field.1 = name)) with
      | [] => descend name fuel (promoted level)
      | [field] => .returned (some field.2)
      | _ => .returned none

/-- Modelled from the spec: `FieldByName(name)` (standard library) on a struct with the
given fields: the field of that name of the struct itself or, when it has none, the field
promoted from its embedded structs; `none` is the zero value, for which `IsValid()` is
false. -/
def fieldByNameIn (fields : List (String × String × Value)) (name : String) :
    Completion (Option (String × Value)) :=
  match mapGet fields name with
  | some field => .returned (some field)
  | none => descend name (depthFields fields) fields

/-- The field that `FieldByName` finds in a struct with the given fields, if it returns
one. -/
def lookup (fields : List (String × String × Value)) (name : String) :
    Option (String × Value) :=
  match fieldByNameIn fields name with
  | .returned found => found
  | .panicked => none

/-- Modelled from the spec: `Value.FieldByName(name)` (standard library).  It panics when
the value is not a struct; on a struct it gives the field of that name, its own or
promoted, or the zero value (`none`) when there is none. -/
def FieldByName (val : Option Value) (name : String) :
    Completion (Option (String × Value)) :=
  match val with
  | some (.struct fields) => fieldByNameIn fields name
  | _ => .panicked

/-- Modelled from the spec: `Value.Interface()` (standard library) on a struct field, given
by its `PkgPath` and value: it panics for an unexported field. -/
def Interface (field : String × Value) : Completion Value :=
  if field.1 = "" then .returned field.2.unembed else .panicked

end reflect

/-! ## Regular expressions -/

namespace regexp

/-- Modelled from the spec: a regular expression of package `regexp` of the Go standard
library, on which the spec is silent, as a syntax tree: nothing, the empty string, one
character of a class given by its ranges, a sequence, a choice, a repetition. -/
inductive Re where
  | nothing
  | empty
  | cls (ranges : List (Char × Char))
  | seq (a b : Re)
  | alt (a b : Re)
  | star (a : Re)
deriving DecidableEq, Repr

/-- Whether a character is in a class. -/
def inClass (ranges : List (Char × Char)) (c : Char) : Bool :=
  ranges.any fun r => decide (r.1.toNat ≤ c.toNat) && decide (c.toNat ≤ r.2.toNat)

/-- Whether the expression matches the empty string. -/
def Re.nullable : Re → Bool
  | .nothing => false
  | .empty => true
  | .cls _ => false
  | .seq a b => a.nullable && b.nullable
  | .alt a b => a.nullable || b.nullable
  | .star _ => true

/-- A sequence, simplified when a part matches nothing or only the empty string. -/
def mkSeq (a b : Re) : Re :=
  match a, b with
  | .nothing, _ => .nothing
  | _, .nothing => .nothing
  | .empty, b => b
  | a, b => .seq a b

/-- A choice, simplified when a part matches nothing. -/
def mkAlt (a b : Re) : Re :=
  match a, b with
  | .nothing, b => b
  | a, .nothing => a
  | a, b => .alt a b

/-- The expression for what may follow the character `c`. -/
def Re.deriv (c : Char) : Re → Re
  | .nothing => .nothing
  | .empty => .nothing
  | .cls ranges => if inClass ranges c then .empty else .nothing
  | .seq a b =>
    if a.nullable then mkAlt (mkSeq (a.deriv c) b) (b.deriv c) else mkSeq (a.deriv c) b
  | .alt a b => mkAlt (a.deriv c) (b.deriv c)
  | .star a => mkSeq (a.deriv c) (.star a)

/-- Whether the expression matches the whole of a list of characters. -/
def Re.matchAll (re : Re) : List Char → Bool
  | [] => re.nullable
  | c :: rest => (re.deriv c).matchAll rest

/-- The operator `?`. -/
def Re.opt (a : Re) : Re := .alt .empty a

/-- The operator `+`. -/
def Re.plus (a : Re) : Re := .seq a (.star a)

/-- The counted repetition: exactly `n` times. -/
def Re.times (a : Re) : Nat → Re
  | 0 => .empty
  | n + 1 => .seq a (a.times n)

/-- Up to `n` times. -/
def Re.upTo (a : Re) : Nat → Re
  | 0 => .empty
  | n + 1 => Re.opt (.seq a (a.upTo n))

/-- The counted repetition from `n` to `m` times, `n ≤ m`: `n` times and then up to
`m - n` times. -/
def Re.between (a : Re) (n m : Nat) : Re := .seq (a.times n) (a.upTo (m - n))

/-- One given character. -/
def chr (c : Char) : Re := .cls [(c, c)]

/-- The class `\d`, which is `[0-9]`. -/
def digit : Re := .cls [('0', '9')]

/-- The class `[A-Z]`. -/
def upper : Re := .cls [('A', 'Z')]

/-- The class `[a-zA-Z]`. -/
def letter : Re := .cls [('a', 'z'), ('A', 'Z')]

/-- A sequence of several expressions. -/
def seqs : List Re → Re
  | [] => .empty
  | [a] => a
  | a :: rest => .seq a (seqs rest)

/-- A compiled pattern of the form `^body$`: it matches a string when `body` matches the
whole string. -/
structure Regexp where
  body : Re
deriving DecidableEq, Repr

/-- Modelled from the spec: `regexp.Compile` (standard library), for the eight patterns
that occur in the package, each written out as a syntax tree.  Any other pattern is outside
the model: `none` stands for it as for a pattern that does not compile, so what is said
of `MatchRegex` on a string holds for these eight patterns only. -/
def Compile (pattern : String) : Option Regexp :=
  if pattern = "^[a-zA-Z0-9._%+-]+@[a-zA-Z0-9.-]+\\.[a-zA-Z]\x7b2,\x7d$" then
    some ⟨seqs [
      Re.plus (.cls [('a', 'z'), ('A', 'Z'), ('0', '9'), ('.', '.'), ('_', '_'), ('%', '%'),
        ('+', '+'), ('-', '-')]),
      chr '@',
      Re.plus (.cls [('a', 'z'), ('A', 'Z'), ('0', '9'), ('.', '.'), ('-', '-')]),
      chr '.', letter.times 2, .star letter]⟩
  else if pattern = "^[A-Z]\x7b5\x7d[0-9]\x7b4\x7d[A-Z]\x7b1\x7d$" then
    some ⟨seqs [upper.times 5, digit.times 4, upper.times 1]⟩
  else if pattern = "^[2-9]\x7b1\x7d[0-9]\x7b11\x7d$" then
    some ⟨seqs [Re.times (.cls [('2', '9')]) 1, digit.times 11]⟩
  else if pattern = "^[A-Z]\x7b1\x7d[0-9]\x7b7\x7d$" then
    some ⟨seqs [upper.times 1, digit.times 7]⟩
  else if pattern = "^\\d\x7b16\x7d$" then
    some ⟨digit.times 16⟩
  else if pattern = "^\\+?[1-9]\\d\x7b1,14\x7d$" then
    some ⟨seqs [Re.opt (chr '+'), .cls [('1', '9')], digit.between 1 14]⟩
  else if pattern = "^[a-zA-Z]+$" then
    some ⟨Re.plus letter⟩
  else if pattern = "^[a-zA-Z0-9]+$" then
    some ⟨Re.plus (.cls [('a', 'z'), ('A', 'Z'), ('0', '9')])⟩
  else none

/-- Modelled from the spec: `regexp.MustCompile` (standard library), which panics when the
pattern does not compile. -/
def MustCompile (pattern : String) : Completion Regexp :=
  match Compile pattern with
  | some re => .returned re
  | none => .panicked

/-- Modelled from the spec: `Regexp.MatchString` (standard library). -/
def Regexp.MatchString (re : Regexp) (s : String) : Bool :=
  re.body.matchAll s.data

end regexp

/-! ## The validators -/

/-- The type `ValidatorFunc`: a function from a value to an error, which may panic. -/
abbrev ValidatorFunc := Value → Completion GoError

/-- The struct `ValidationRule`. -/
structure ValidationRule where
  Field : String
  Validator : ValidatorFunc
  ErrorMsg : String

/-- The loop of `ValidateStruct` over the rules, with the map of errors built so far. -/
def validateRules (val : Option Value) :
    List ValidationRule → List (String × String) → Completion (List (String × String))
  | [], errorsMap => .returned errorsMap
  | rule :: rest, errorsMap =>
    match reflect.FieldByName val rule.Field with
    | .panicked => .panicked
    | .returned none => validateRules val rest (mapSet errorsMap rule.Field "Invalid field")
    | .returned (some field) =>
      match reflect.Interface field with
      | .panicked => .panicked
      | .returned value =>
        match rule.Validator value with
        | .panicked => .panicked
        | .returned (some _) =>
          validateRules val rest (mapSet errorsMap rule.Field rule.ErrorMsg)
        | .returned none => validateRules val rest errorsMap

/-- The function `ValidateStruct(data, rules)`. -/
def ValidateStruct (data : Value) (rules : List ValidationRule) :
    Completion (List (String × String)) :=
  validateRules (reflect.valueOfElem data) rules []

/-- The function `NotEmpty`. -/
def NotEmpty : ValidatorFunc := fun value =>
  match value with
  | .string str => if str = "" then .returned (some "Field cannot be empty") else .returned none
  | _ => .returned none

/-- The function `MatchRegex(value, pattern, errorMsg)`. -/
def MatchRegex (value : Value) (pattern : String) (errorMsg : String) : Completion GoError :=
  match value with
  | .string str =>
    match regexp.MustCompile pattern with
    | .panicked => .panicked
    | .returned re =>
      if !re.MatchString str then .returned (some errorMsg) else .returned none
  | _ => .returned none

/-- The function `IsEmail`. -/
def IsEmail : ValidatorFunc := fun value =>
  MatchRegex value "^[a-zA-Z0-9._%+-]+@[a-zA-Z0-9.-]+\\.[a-zA-Z]\x7b2,\x7d$"
    "Invalid email format"

/-- The conversion `string(n)` of an `int`: the string of the one character with that code
point, or of the replacement character when `n` is no valid code point. -/
def runeString (n : Int) : String :=
  if 0 ≤ n ∧ n.toNat.isValidChar then String.singleton (Char.ofNat n.toNat)
  else String.singleton (Char.ofNat 0xFFFD)

/-- The function `MinLength(length)`; `len(str)` is the number of bytes of the string. -/
def MinLength (length : Int) : ValidatorFunc := fun value =>
  match value with
  | .string str =>
    if (str.utf8ByteSize : Int) < length then
      .returned (some ("Field must be at least " ++ runeString length ++ " characters long"))
    else .returned none
  | _ => .returned none

/-- The function `MinValue(min)`. -/
def MinValue (min : Int) : ValidatorFunc := fun value =>
  match value with
  | .int num =>
    if num < min then .returned (some ("Value must be at least " ++ runeString min))
    else .returned none
  | _ => .returned none

/-- The function `MaxValue(max)`. -/
def MaxValue (max : Int) : ValidatorFunc := fun value =>
  match value with
  | .int num =>
    if num > max then .returned (some ("Value must not exceed " ++ runeString max))
    else .returned none
  | _ => .returned none

/-- The function `ValidateNestedStruct`, which calls `ValidateStruct` with nil rules. -/
def ValidateNestedStruct : ValidatorFunc := fun field =>
  match ValidateStruct field [] with
  | .panicked => .panicked
  | .returned subErrors =>
    if subErrors.length > 0 then .returned (some "Nested struct validation failed")
    else .returned none

/-- The function `IsPAN`. -/
def IsPAN : ValidatorFunc := fun value =>
  MatchRegex value "^[A-Z]\x7b5\x7d[0-9]\x7b4\x7d[A-Z]\x7b1\x7d$" "Invalid PAN format"

/-- The function `IsAadhaar`. -/
def IsAadhaar : ValidatorFunc := fun value =>
  MatchRegex value "^[2-9]\x7b1\x7d[0-9]\x7b11\x7d$" "Invalid Aadhaar number"

/-- The function `IsPassport`. -/
def IsPassport : ValidatorFunc := fun value =>
  MatchRegex value "^[A-Z]\x7b1\x7d[0-9]\x7b7\x7d$" "Invalid Passport format"

/-- The function `IsCreditCard`. -/
def IsCreditCard : ValidatorFunc := fun value =>
  MatchRegex value "^\\d\x7b16\x7d$" "Invalid Credit Card number"

/-- The function `IsPhoneNumber`. -/
def IsPhoneNumber : ValidatorFunc := fun value =>
  MatchRegex value "^\\+?[1-9]\\d\x7b1,14\x7d$" "Invalid phone number format"

/-- The function `IsAlpha`. -/
def IsAlpha : ValidatorFunc := fun value =>
  MatchRegex value "^[a-zA-Z]+$" "Field must contain only letters"

/-- The function `IsAlphanumeric`. -/
def IsAlphanumeric : ValidatorFunc := fun value =>
  MatchRegex value "^[a-zA-Z0-9]+$" "Field must contain only letters and numbers"

/-! ## The example of `examples/datavalidator/datavalidator.go` -/

/-- The value `user` of the example. -/
def exampleUser : Value :=
  .struct [
    ("Name", "", .string ""),
    ("Email", "", .string "invalid-email"),
    ("Phone", "", .string "12345"),
    ("Age", "", .int 16),
    ("PAN", "", .string "ABCDE12345"),
    ("Aadhaar", "", .string "123456789012"),
    ("Passport", "", .string "A123456"),
    ("CreditCard", "", .string "123456781234567"),
    ("Address", "", .struct [("City", "", .string ""), ("Pin", "", .int 999)])]

/-- The value `rules` of the example. -/
def exampleRules : List ValidationRule := [
  { Field := "Name", Validator := NotEmpty, ErrorMsg := "Name is required" },
  { Field := "Email", Validator := IsEmail, ErrorMsg := "Invalid email address" },
  { Field := "Phone", Validator := IsPhoneNumber, ErrorMsg := "Invalid phone number" },
  { Field := "Age", Validator := MinValue 18, ErrorMsg := "Age must be at least 18" },
  { Field := "PAN", Validator := IsPAN, ErrorMsg := "Invalid PAN format" },
  { Field := "Aadhaar", Validator := IsAadhaar, ErrorMsg := "Invalid Aadhaar number" },
  { Field := "Passport", Validator := IsPassport, ErrorMsg := "Invalid Passport format" },
  { Field := "CreditCard", Validator := IsCreditCard,
    ErrorMsg := "Invalid Credit Card number" },
  { Field := "Address", Validator := ValidateNestedStruct,
    ErrorMsg := "Address validation failed" }]

/-- The entry that one rule files in the map of errors for a struct with the given fields,
if it files one: "Invalid field" when `FieldByName` finds no field of that name, the rule's
`ErrorMsg` when the validator returns an error on the value of the field. -/
def ruleEntry (fields : List (String × String × Value)) (rule : ValidationRule) :
    Option String :=
  match reflect.lookup fields rule.Field with
  | none => some "Invalid field"
  | some field =>
    match rule.Validator field.2.unembed with
    | .returned (some _) => some rule.ErrorMsg
    | _ => none

/-- The entry under `name` after the rules have been gone through in order, given the
entry `cur` before: every rule for `name` that files an entry replaces it. -/
def entryAfter (fields : List (String × String × Value)) (name : String)
    (rules : List ValidationRule) (cur : Option String) : Option String :=
  rules.foldl (fun acc rule =>
    if rule.Field = name then
      match ruleEntry fields rule with
      | some msg => some msg
      | none => acc
    else acc) cur

/-! ## The job scheduler (`pkg/cronmanager/cronmanager.go`) -/

namespace cron

/-- The type `cron.EntryID`. -/
abbrev EntryID := Int

/-- Modelled from the spec: the scheduler `cron.Cron` of the dependency
`github.com/robfig/cron/v3`, whose source is not part of the repository and on which the
spec is silent; this is its documented behaviour.  It holds the scheduled entries, each
with its id and its schedule, the last id given out, and the parser of schedules, which
returns nil for a schedule it accepts and an error otherwise. -/
structure Cron where
  parser : String → GoError
  entries : List (EntryID × String)
  nextID : EntryID

/-- Modelled from the spec: `cron.New(...)`, an empty scheduler with the given parser. -/
def New (parser : String → GoError) : Cron :=
  { parser := parser, entries := [], nextID := 0 }

/-- Modelled from the spec: `AddFunc(spec, cmd)`.  A schedule that does not parse gives the
error and changes nothing; otherwise a new entry is scheduled under the next id, which is
returned. -/
def Cron.AddFunc (c : Cron) (spec : String) : Cron × EntryID × GoError :=
  match c.parser spec with
  | some err => (c, 0, some err)
  | none =>
    ({ c with entries := c.entries ++ [(c.nextID + 1, spec)], nextID := c.nextID + 1 },
      c.nextID + 1, none)

/-- Modelled from the spec: `Remove(id)`, which takes the entry with that id out of the
scheduler. -/
def Cron.Remove (c : Cron) (id : EntryID) : Cron :=
  { c with entries := c.entries.filter (fun e => decide (e.1 ≠ id)) }

end cron

/-- The struct `Job`; the task is of any type `T`. -/
structure Job (T : Type) where
  ID : cron.EntryID
  Schedule : String
  Task : T
  Args : List Value

/-- The struct `CronManager`, without its mutex. -/
structure CronManager (T : Type) where
  cron : cron.Cron
  jobs : List (String × Job T)

namespace CronManager

/-- The function `New()`; the parser is the one that `cron.WithSeconds()` selects. -/
def New {T : Type} (parser : String → GoError) : CronManager T :=
  { cron := cron.New parser, jobs := [] }

/-- The method `AddJob(name, schedule, task, args...)`: the manager afterwards and the
error returned. -/
def AddJob {T : Type} (c : CronManager T) (name schedule : String) (task : T)
    (args : List Value) : CronManager T × GoError :=
  match c.cron.AddFunc schedule with
  | (_, _, some err) => (c, some err)
  | (cron1, id, none) =>
    ({ cron := cron1,
       jobs := mapSet c.jobs name { ID := id, Schedule := schedule, Task := task, Args := args } },
      none)

/-- The method `RemoveJob(name)`. -/
def RemoveJob {T : Type} (c : CronManager T) (name : String) : CronManager T :=
  match mapGet c.jobs name with
  | some job => { cron := c.cron.Remove job.ID, jobs := mapDelete c.jobs name }
  | none => c

/-- The ids of the entries in the scheduler. -/
def entryIDs {T : Type} (c : CronManager T) : List cron.EntryID :=
  c.cron.entries.map Prod.fst

/-- The ids of the jobs in the map `jobs`. -/
def jobIDs {T : Type} (c : CronManager T) : List cron.EntryID :=
  c.jobs.map fun e => e.2.ID

end CronManager

end Golib

namespace Golib

variable {V : Type}

/-! ## Go maps: lookup after update -/

theorem mapGet_mapDelete {β : Type} (m : List (String × β)) (k k' : String) :
    mapGet (mapDelete m k) k' = if k' = k then none else mapGet m k' := by
  induction m with
  | nil => simp [mapDelete, mapGet]
  | cons e rest ih =>
    unfold mapDelete at ih ⊢
    by_cases h : e.1 = k
    · simp only [List.filter_cons, h, ne_eq, not_true_eq_false, decide_False, Bool.false_eq_true,
        if_false, ih, mapGet]
      by_cases h' : k' = k
      · simp [h']
      · have : ¬ k = k' := fun x => h' x.symm
        simp [h', this]
    · simp only [List.filter_cons, h, ne_eq, not_false_eq_true, decide_True, if_true, mapGet, ih]
      by_cases h' : k' = k
      · subst h'
        simp [h]
      · simp [h']

theorem mapGet_mapSet {β : Type} (m : List (String × β)) (k k' : String) (v : β) :
    mapGet (mapSet m k v) k' = if k' = k then some v else mapGet m k' := by
  unfold mapSet
  by_cases h : k' = k
  · subst h
    simp [mapGet]
  · have : ¬ k = k' := fun x => h x.symm
    simp [mapGet, this, h, mapGet_mapDelete]

theorem mem_mapKeys_iff {β : Type} (m : List (String × β)) (k : String) :
    k ∈ mapKeys m ↔ ∃ v, mapGet m k = some v := by
  induction m with
  | nil => simp [mapKeys, mapGet]
  | cons e rest ih =>
    unfold mapKeys at ih ⊢
    by_cases h : e.1 = k
    · simp [mapGet, h]
    · have : ¬ k = e.1 := fun x => h x.symm
      simp only [List.map_cons, List.mem_cons, this, false_or, mapGet, h, if_false]
      exact ih

theorem not_mem_mapKeys_iff {β : Type} (m : List (String × β)) (k : String) :
    k ∉ mapKeys m ↔ mapGet m k = none := by
  rw [mem_mapKeys_iff]
  cases mapGet m k <;> simp

theorem mem_mapKeys_mapDelete {β : Type} (m : List (String × β)) (k k' : String) :
    k' ∈ mapKeys (mapDelete m k) ↔ k' ≠ k ∧ k' ∈ mapKeys m := by
  rw [mem_mapKeys_iff, mem_mapKeys_iff, mapGet_mapDelete]
  by_cases h : k' = k <;> simp [h]

theorem mapKeys_mapDelete {β : Type} (m : List (String × β)) (k : String) :
    mapKeys (mapDelete m k) = (mapKeys m).filter (fun x => decide (x ≠ k)) := by
  induction m with
  | nil => rfl
  | cons e rest ih =>
    unfold mapKeys mapDelete at ih ⊢
    by_cases h : e.1 = k
    · simp only [List.filter_cons, h, ne_eq, not_true_eq_false, decide_False,
        Bool.false_eq_true, if_false, List.map_cons]
      exact ih
    · simp only [List.filter_cons, h, ne_eq, not_false_eq_true, decide_True, if_true,
        List.map_cons]
      rw [ih]

theorem nodup_mapKeys_mapDelete {β : Type} (m : List (String × β)) (k : String)
    (h : (mapKeys m).Nodup) : (mapKeys (mapDelete m k)).Nodup := by
  rw [mapKeys_mapDelete]
  exact h.filter _

theorem nodup_mapKeys_mapSet {β : Type} (m : List (String × β)) (k : String) (v : β)
    (h : (mapKeys m).Nodup) : (mapKeys (mapSet m k v)).Nodup := by
  have h1 := nodup_mapKeys_mapDelete m k h
  have h2 : k ∉ mapKeys (mapDelete m k) := by
    rw [mem_mapKeys_mapDelete]
    simp
  unfold mapSet mapKeys at *
  simp only [List.map_cons, List.nodup_cons]
  exact ⟨h2, h1⟩

theorem mapDelete_length_le {β : Type} (m : List (String × β)) (k : String) :
    (mapDelete m k).length ≤ m.length :=
  List.length_filter_le _ _

theorem mapDelete_length_lt {β : Type} (m : List (String × β)) (k : String) (v : β)
    (h : mapGet m k = some v) : (mapDelete m k).length < m.length := by
  induction m with
  | nil => simp [mapGet] at h
  | cons e rest ih =>
    unfold mapDelete at ih ⊢
    by_cases he : e.1 = k
    · simp only [List.filter_cons, he, ne_eq, not_true_eq_false, decide_False,
        Bool.false_eq_true, if_false, List.length_cons]
      exact Nat.lt_succ_of_le (List.length_filter_le _ _)
    · simp only [mapGet, he, if_false] at h
      simp only [List.filter_cons, he, ne_eq, not_false_eq_true, decide_True, if_true,
        List.length_cons]
      exact Nat.succ_lt_succ (ih h)

theorem mapDelete_eq_self {β : Type} (m : List (String × β)) (k : String)
    (h : mapGet m k = none) : mapDelete m k = m := by
  induction m with
  | nil => rfl
  | cons e rest ih =>
    unfold mapDelete at ih ⊢
    by_cases he : e.1 = k
    · simp [mapGet, he] at h
    · simp only [mapGet, he, if_false] at h
      simp only [List.filter_cons, he, ne_eq, not_false_eq_true, decide_True, if_true]
      rw [ih h]

end Golib

namespace Golib

variable {V : Type}

/-! ## The recency store: what `Add`, `Get` and `Remove` do to the entries -/

theorem mapGet_dropLast {β : Type} (m : List (String × β)) (k : String) (v : β)
    (h : mapGet m.dropLast k = some v) : mapGet m k = some v := by
  induction m with
  | nil => simp [mapGet] at h
  | cons e rest ih =>
    cases rest with
    | nil => simp [mapGet] at h
    | cons e2 rest2 =>
      rw [List.dropLast_cons₂] at h
      by_cases he : e.1 = k
      · simpa [mapGet, he] using h
      · simp only [mapGet, he, if_false] at h ⊢
        exact ih h

theorem lru_Add_size (c : lru.Cache V) (k : String) (v : V) : (c.Add k v).1.size = c.size := by
  unfold lru.Cache.Add
  split
  · rfl
  · dsimp only
    split <;> rfl

theorem lru_Get_size (c : lru.Cache V) (k : String) : (c.Get k).1.size = c.size := by
  unfold lru.Cache.Get
  split <;> rfl

theorem lru_Add_len (c : lru.Cache V) (k : String) (v : V) (h : c.Len ≤ c.size) :
    (c.Add k v).1.Len ≤ c.size := by
  unfold lru.Cache.Len at *
  unfold lru.Cache.Add
  split
  · next w hw =>
    have := mapDelete_length_lt c.items k w hw
    simp only [List.length_cons]
    omega
  · dsimp only
    split
    · simpa using h
    · next hgt => simpa using hgt

theorem lru_Get_len (c : lru.Cache V) (k : String) (h : c.Len ≤ c.size) :
    (c.Get k).1.Len ≤ c.size := by
  unfold lru.Cache.Len at *
  unfold lru.Cache.Get
  split
  · next w hw =>
    have := mapDelete_length_lt c.items k w hw
    simp only [List.length_cons]
    omega
  · exact h

theorem lru_Remove_len (c : lru.Cache V) (k : String) (h : c.Len ≤ c.size) :
    (c.Remove k).Len ≤ c.size :=
  Nat.le_trans (mapDelete_length_le c.items k) h

theorem lru_Add_keys (c : lru.Cache V) (k k' : String) (v : V)
    (h : k' ∈ (c.Add k v).1.keys) : k' = k ∨ k' ∈ c.keys := by
  unfold lru.Cache.keys at *
  unfold lru.Cache.Add at h
  split at h
  · simp only [mapKeys, List.map_cons, List.mem_cons] at h
    rcases h with h | h
    · exact Or.inl h
    · exact Or.inr ((mem_mapKeys_mapDelete c.items k k').1 h).2
  · dsimp only at h
    split at h
    · have h2 := List.mem_of_mem_dropLast (by simpa [mapKeys] using h)
      simpa [mapKeys] using h2
    · simpa [mapKeys] using h

theorem lru_Add_nodup (c : lru.Cache V) (k : String) (v : V) (h : c.keys.Nodup) :
    (c.Add k v).1.keys.Nodup := by
  unfold lru.Cache.keys at *
  unfold lru.Cache.Add
  split
  · exact nodup_mapKeys_mapSet c.items k v h
  · next hn =>
    have hk : k ∉ mapKeys c.items := (not_mem_mapKeys_iff c.items k).2 hn
    have hcons : (mapKeys ((k, v) :: c.items)).Nodup := by
      simp only [mapKeys, List.map_cons, List.nodup_cons]
      exact ⟨hk, h⟩
    dsimp only
    split
    · unfold mapKeys at hcons ⊢
      rw [List.map_dropLast]
      exact hcons.sublist (List.dropLast_sublist _)
    · exact hcons

theorem lru_Get_items (c : lru.Cache V) (k : String) :
    (c.Get k).1.items = match mapGet c.items k with
      | some v => (k, v) :: mapDelete c.items k
      | none => c.items := by
  unfold lru.Cache.Get
  split <;> simp_all

theorem lru_Get_mapGet (c : lru.Cache V) (k k' : String) :
    mapGet (c.Get k).1.items k' = mapGet c.items k' := by
  rw [lru_Get_items]
  cases h : mapGet c.items k with
  | none => rfl
  | some v =>
    have := mapGet_mapSet c.items k k' v
    unfold mapSet at this
    simp only [this]
    by_cases hk : k' = k
    · subst hk
      simp [h]
    · simp [hk]

theorem lru_Get_keys (c : lru.Cache V) (k k' : String) :
    k' ∈ (c.Get k).1.keys ↔ k' ∈ c.keys := by
  unfold lru.Cache.keys
  rw [mem_mapKeys_iff, mem_mapKeys_iff, lru_Get_mapGet]

theorem lru_Get_nodup (c : lru.Cache V) (k : String) (h : c.keys.Nodup) :
    (c.Get k).1.keys.Nodup := by
  unfold lru.Cache.keys at *
  rw [lru_Get_items]
  cases hg : mapGet c.items k with
  | none => exact h
  | some v => exact nodup_mapKeys_mapSet c.items k v h

theorem lru_Get_result (c : lru.Cache V) (k : String) : (c.Get k).2 = mapGet c.items k := by
  unfold lru.Cache.Get
  split <;> simp_all

/-- After `Add key value` on a store of positive capacity the key is in the store with that
value. -/
theorem lru_Add_mapGet_self (c : lru.Cache V) (k : String) (v : V) (h : 0 < c.size) :
    mapGet (c.Add k v).1.items k = some v := by
  unfold lru.Cache.Add
  split
  · simp [mapGet]
  · dsimp only
    split
    · cases hi : c.items with
      | nil =>
        rename_i hlen
        simp [hi] at hlen
        omega
      | cons e rest =>
        rw [List.dropLast_cons₂]
        simp [mapGet]
    · simp [mapGet]

/-- An entry of another key found after `Add` was there before, with the same value. -/
theorem lru_Add_mapGet_other (c : lru.Cache V) (k k' : String) (v w : V) (hk : k' ≠ k)
    (h : mapGet (c.Add k v).1.items k' = some w) : mapGet c.items k' = some w := by
  have hk2 : ¬ k = k' := fun x => hk x.symm
  unfold lru.Cache.Add at h
  split at h
  · have := mapGet_mapSet c.items k k' v
    unfold mapSet at this
    rw [this] at h
    simpa [hk] using h
  · dsimp only at h
    split at h
    · have h2 := mapGet_dropLast _ _ _ h
      simpa [mapGet, hk2] using h2
    · simpa [mapGet, hk2] using h

end Golib

namespace Golib

variable {V : Type}

/-! ## Well-formedness is kept by every operation -/

theorem NewLRUCache_eq (size : Int) (ttl : Duration) (c0 : LRUCache V)
    (h : NewLRUCache size ttl = some c0) :
    0 < size ∧ c0 = { cache := { size := size.toNat, items := [] }, ttl := [], expiryDur := ttl } := by
  unfold NewLRUCache lru.New at h
  by_cases hs : size ≤ 0
  · simp [hs] at h
  · simp only [hs, if_false, Option.some.injEq] at h
    exact ⟨by omega, h.symm⟩

theorem wellFormed_new (size : Int) (ttl : Duration) (c0 : LRUCache V)
    (h : NewLRUCache size ttl = some c0) : WellFormed c0 := by
  obtain ⟨hpos, rfl⟩ := NewLRUCache_eq size ttl c0 h
  refine ⟨?_, ?_, ?_, ?_, ?_⟩
  · show 0 < size.toNat
    omega
  · simp [lru.Cache.Len]
  · simp [lru.Cache.keys, mapKeys]
  · simp [mapKeys]
  · intro k hk
    simp [lru.Cache.keys, mapKeys] at hk

theorem wellFormed_Set (c : LRUCache V) (now : Time) (k : String) (v : V) (d : Duration)
    (h : WellFormed c) : WellFormed (c.Set now k v d) := by
  unfold LRUCache.Set
  refine ⟨?_, ?_, ?_, ?_, ?_⟩
  · show 0 < (c.cache.Add k v).1.size
    rw [lru_Add_size]
    exact h.size_pos
  · show (c.cache.Add k v).1.Len ≤ (c.cache.Add k v).1.size
    rw [lru_Add_size]
    exact lru_Add_len c.cache k v h.len_le
  · exact lru_Add_nodup c.cache k v h.cache_nodup
  · exact nodup_mapKeys_mapSet c.ttl k _ h.ttl_nodup
  · intro k' hk'
    show k' ∈ mapKeys (mapSet c.ttl k (now + d))
    rcases lru_Add_keys c.cache k k' v hk' with rfl | hin
    · simp [mapSet, mapKeys]
    · have := h.cache_sub k' hin
      by_cases hkk : k' = k
      · subst hkk
        simp [mapSet, mapKeys]
      · have h2 := (mem_mapKeys_mapDelete c.ttl k k').2 ⟨hkk, this⟩
        unfold mapSet mapKeys at *
        simp only [List.map_cons, List.mem_cons]
        exact Or.inr h2

theorem wellFormed_Delete (c : LRUCache V) (k : String) (h : WellFormed c) :
    WellFormed (c.Delete k) := by
  unfold LRUCache.Delete
  refine ⟨h.size_pos, lru_Remove_len c.cache k h.len_le, ?_, ?_, ?_⟩
  · exact nodup_mapKeys_mapDelete c.cache.items k h.cache_nodup
  · exact nodup_mapKeys_mapDelete c.ttl k h.ttl_nodup
  · intro k' hk'
    have h1 := (mem_mapKeys_mapDelete c.cache.items k k').1 hk'
    exact (mem_mapKeys_mapDelete c.ttl k k').2 ⟨h1.1, h.cache_sub k' h1.2⟩

/-- The three possible courses of `Get`, read off the code. -/
theorem Get_cases (c : LRUCache V) (now : Time) (k : String) :
    (mapGet c.ttl k = none ∧ c.Get now k = (c, .error "key not found")) ∨
    (∃ e, mapGet c.ttl k = some e ∧ now > e ∧
      c.Get now k = (c.Delete k, .error "cache expired")) ∨
    (∃ e, mapGet c.ttl k = some e ∧ ¬ now > e ∧
      c.Get now k = ({ c with cache := (c.cache.Get k).1 },
        match mapGet c.cache.items k with
        | some v => .ok v
        | none => .error "key not found")) := by
  unfold LRUCache.Get
  cases ht : mapGet c.ttl k with
  | none => exact Or.inl ⟨rfl, rfl⟩
  | some e =>
    by_cases hn : now > e
    · refine Or.inr (Or.inl ⟨e, rfl, hn, ?_⟩)
      simp [hn, LRUCache.Delete]
    · refine Or.inr (Or.inr ⟨e, rfl, hn, ?_⟩)
      simp only [hn, if_false]
      have hr := lru_Get_result c.cache k
      cases hg : mapGet c.cache.items k with
      | none =>
        rw [hg] at hr
        have : c.cache.Get k = ((c.cache.Get k).1, none) := by rw [← hr]
        rw [this]
      | some v =>
        rw [hg] at hr
        have : c.cache.Get k = ((c.cache.Get k).1, some v) := by rw [← hr]
        rw [this]

/-- When `Get` returns a value: the key has an expiry that `now` is not after, and the
recency store holds the key with that value. -/
theorem Get_ok_iff (c : LRUCache V) (now : Time) (k : String) (v : V) :
    (c.Get now k).2 = .ok v ↔
      ∃ e, mapGet c.ttl k = some e ∧ now ≤ e ∧ mapGet c.cache.items k = some v := by
  rcases Get_cases c now k with ⟨hn, hg⟩ | ⟨e, he, hlt, hg⟩ | ⟨e, he, hge, hg⟩
  · rw [hg]
    simp [hn]
  · rw [hg]
    simp only [he, Option.some.injEq, exists_eq_left', false_iff, not_and, reduceCtorEq]
    intro hle
    exact absurd hlt (not_lt.2 hle)
  · rw [hg]
    simp only [he, Option.some.injEq, exists_eq_left']
    have hle : now ≤ e := not_lt.1 hge
    cases hc : mapGet c.cache.items k with
    | none => simp
    | some w => simp [hle]

/-- What `Get` returns for a key right after `Set` of that key, on a store of positive
capacity. -/
theorem Get_after_Set (c : LRUCache V) (hcap : 0 < c.cache.size) (t now : Time) (k : String)
    (v : V) (d : Duration) :
    (now ≤ t + d → ((c.Set t k v d).Get now k).2 = .ok v) ∧
    (t + d < now → ((c.Set t k v d).Get now k).2 = .error "cache expired") := by
  have httl : mapGet (c.Set t k v d).ttl k = some (t + d) := by
    show mapGet (mapSet c.ttl k (t + d)) k = some (t + d)
    rw [mapGet_mapSet]
    simp
  have hcache : mapGet (c.Set t k v d).cache.items k = some v :=
    lru_Add_mapGet_self c.cache k v hcap
  refine ⟨?_, ?_⟩
  · intro hle
    exact (Get_ok_iff _ now k v).2 ⟨t + d, httl, hle, hcache⟩
  · intro hlt
    rcases Get_cases (c.Set t k v d) now k with ⟨hn, _⟩ | ⟨e, he, _, hg⟩ | ⟨e, he, hge, _⟩
    · rw [httl] at hn
      cases hn
    · rw [hg]
    · rw [httl] at he
      cases he
      exact absurd hlt hge

theorem wellFormed_Get (c : LRUCache V) (now : Time) (k : String) (h : WellFormed c) :
    WellFormed (c.Get now k).1 := by
  rcases Get_cases c now k with ⟨_, hg⟩ | ⟨e, _, _, hg⟩ | ⟨e, _, _, hg⟩
  · rw [hg]
    exact h
  · rw [hg]
    exact wellFormed_Delete c k h
  · rw [hg]
    refine ⟨?_, ?_, ?_, h.ttl_nodup, ?_⟩
    · show 0 < (c.cache.Get k).1.size
      rw [lru_Get_size]
      exact h.size_pos
    · show (c.cache.Get k).1.Len ≤ (c.cache.Get k).1.size
      rw [lru_Get_size]
      exact lru_Get_len c.cache k h.len_le
    · exact lru_Get_nodup c.cache k h.cache_nodup
    · intro k' hk'
      exact h.cache_sub k' ((lru_Get_keys c.cache k k').1 hk')

theorem wellFormed_step (c : LRUCache V) (call : Call V) (h : WellFormed c) :
    WellFormed (step c call) := by
  obtain ⟨now, op⟩ := call
  cases op with
  | set k v d => exact wellFormed_Set c now k v d h
  | get k => exact wellFormed_Get c now k h
  | delete k => exact wellFormed_Delete c k h

theorem wellFormed_run (calls : List (Call V)) (c : LRUCache V) (h : WellFormed c) :
    WellFormed (run c calls) := by
  induction calls generalizing c with
  | nil => exact h
  | cons call rest ih => exact ih (step c call) (wellFormed_step c call h)

theorem wellFormed_of_reachable (c : LRUCache V) (h : Reachable c) : WellFormed c := by
  obtain ⟨size, ttl, c0, calls, hnew, rfl⟩ := h
  exact wellFormed_run calls c0 (wellFormed_new size ttl c0 hnew)

theorem step_size (c : LRUCache V) (call : Call V) : (step c call).cache.size = c.cache.size := by
  obtain ⟨now, op⟩ := call
  cases op with
  | set k v d => exact lru_Add_size c.cache k v
  | get k =>
    show (c.Get now k).1.cache.size = c.cache.size
    rcases Get_cases c now k with ⟨_, hg⟩ | ⟨e, _, _, hg⟩ | ⟨e, _, _, hg⟩
    · rw [hg]
    · rw [hg]
      rfl
    · rw [hg]
      exact lru_Get_size c.cache k
  | delete k => rfl

theorem run_size (calls : List (Call V)) (c : LRUCache V) :
    (run c calls).cache.size = c.cache.size := by
  induction calls generalizing c with
  | nil => rfl
  | cons call rest ih =>
    show (run (step c call) rest).cache.size = c.cache.size
    rw [ih, step_size]

theorem run_append (c : LRUCache V) (xs ys : List (Call V)) :
    run c (xs ++ ys) = run (run c xs) ys := by
  simp [run, List.foldl_append]

end Golib

namespace Golib

variable {V : Type}

/-! ## Sequences of `Set` calls with distinct keys -/

theorem lru_Add_new (c : lru.Cache V) (k : String) (v : V) (hk : mapGet c.items k = none)
    (hlen : c.Len ≤ c.size) : (c.Add k v).1.items = ((k, v) :: c.items).take c.size := by
  unfold lru.Cache.Len at hlen
  unfold lru.Cache.Add
  rw [hk]
  dsimp only
  split
  · next hgt =>
    simp only [List.length_cons] at hgt
    have : c.size = c.items.length := by omega
    rw [List.dropLast_eq_take]
    simp [this]
  · next hle =>
    simp only [List.length_cons, gt_iff_lt, not_lt] at hle
    rw [List.take_of_length_le]
    simpa using hle

theorem run_snoc (c : LRUCache V) (calls : List (Call V)) (call : Call V) :
    run c (calls ++ [call]) = step (run c calls) call := by
  rw [run_append]
  rfl

theorem take_cons_take {α : Type} (n : Nat) (x : α) (l : List α) :
    (x :: l.take n).take n = (x :: l).take n := by
  cases n with
  | zero => rfl
  | succ m =>
    simp only [List.take_succ_cons, List.take_take]
    rw [Nat.min_eq_left (Nat.le_succ m)]

theorem run_sets_items (c0 : LRUCache V) (hitems : c0.cache.items = [])
    (sets : List (SetCall V)) (hnodup : (sets.map SetCall.key).Nodup) :
    (run c0 (sets.map SetCall.toCall)).cache.items
      = ((sets.map (fun s => (s.key, s.value))).reverse).take c0.cache.size := by
  induction sets using List.reverseRecOn with
  | nil => simp [run, hitems]
  | append_singleton sets s ih =>
    rw [List.map_append, List.nodup_append] at hnodup
    obtain ⟨hnd, _, hdisj⟩ := hnodup
    have ih := ih hnd
    rw [List.map_append, List.map_singleton, run_snoc]
    show ((run c0 (sets.map SetCall.toCall)).cache.Add s.key s.value).1.items = _
    have hfresh : mapGet (run c0 (sets.map SetCall.toCall)).cache.items s.key = none := by
      rw [← not_mem_mapKeys_iff, ih]
      intro hmem
      unfold mapKeys at hmem
      rw [List.map_take, List.map_reverse, List.map_map] at hmem
      have h2 := List.mem_reverse.1 (List.mem_of_mem_take hmem)
      exact hdisj h2 (by simp)
    have hlen : (run c0 (sets.map SetCall.toCall)).cache.Len
        ≤ (run c0 (sets.map SetCall.toCall)).cache.size := by
      unfold lru.Cache.Len
      rw [ih, run_size, List.length_take]
      exact Nat.min_le_left _ _
    rw [lru_Add_new _ _ _ hfresh hlen, ih, run_size, take_cons_take]
    simp

theorem run_sets_ttl (c0 : LRUCache V) (sets : List (SetCall V))
    (hnodup : (sets.map SetCall.key).Nodup) (s : SetCall V) (hs : s ∈ sets) :
    mapGet (run c0 (sets.map SetCall.toCall)).ttl s.key = some (s.now + s.expiration) := by
  induction sets using List.reverseRecOn with
  | nil => simp at hs
  | append_singleton sets s2 ih =>
    rw [List.map_append, List.nodup_append] at hnodup
    obtain ⟨hnd, _, hdisj⟩ := hnodup
    rw [List.map_append, List.map_singleton, run_snoc]
    show mapGet (mapSet (run c0 (sets.map SetCall.toCall)).ttl s2.key
      (s2.now + s2.expiration)) s.key = _
    rw [mapGet_mapSet]
    rcases List.mem_append.1 hs with h1 | h1
    · have hne : s.key ≠ s2.key := by
        intro heq
        exact hdisj (List.mem_map_of_mem SetCall.key h1) (by simp [heq])
      simp only [hne, if_false]
      exact ih hnd h1
    · have : s = s2 := by simpa using h1
      subst this
      simp

/-! ## A full store: promotion by `Get`, eviction by `Add` -/

theorem mapDelete_length_of_nodup {β : Type} (m : List (String × β)) (a : String) (v : β)
    (hnd : (mapKeys m).Nodup) (h : mapGet m a = some v) :
    (mapDelete m a).length + 1 = m.length := by
  induction m with
  | nil => simp [mapGet] at h
  | cons e rest ih =>
    have hnd2 : e.1 ∉ mapKeys rest ∧ (mapKeys rest).Nodup := by
      simpa [mapKeys] using hnd
    by_cases he : e.1 = a
    · have hrest : mapGet rest a = none := by
        rw [← not_mem_mapKeys_iff, ← he]
        exact hnd2.1
      have hself := mapDelete_eq_self rest a hrest
      unfold mapDelete at hself ⊢
      simp only [List.filter_cons, he, ne_eq, not_true_eq_false, decide_False,
        Bool.false_eq_true, if_false, List.length_cons]
      rw [hself]
    · simp only [mapGet, he, if_false] at h
      have := ih hnd2.2 h
      unfold mapDelete at this ⊢
      simp only [ne_eq] at this
      simp only [List.filter_cons, he, ne_eq, not_false_eq_true, decide_True, if_true,
        List.length_cons]
      omega

theorem lru_Add_full (c : lru.Cache V) (k : String) (v : V) (hk : mapGet c.items k = none)
    (hfull : c.Len = c.size) : (c.Add k v).1.items = ((k, v) :: c.items).dropLast := by
  unfold lru.Cache.Len at hfull
  unfold lru.Cache.Add
  rw [hk]
  dsimp only
  rw [if_pos]
  simp only [List.length_cons]
  omega

theorem Get_ok_state (c : LRUCache V) (now : Time) (a : String) (v : V)
    (h : (c.Get now a).2 = .ok v) :
    (c.Get now a).1 = { c with cache := { c.cache with
      items := (a, v) :: mapDelete c.cache.items a } } := by
  obtain ⟨e, he, hle, hc⟩ := (Get_ok_iff c now a v).1 h
  rcases Get_cases c now a with ⟨hn, _⟩ | ⟨e2, he2, hlt, _⟩ | ⟨e2, _, _, hg⟩
  · rw [he] at hn
    cases hn
  · rw [he] at he2
    cases he2
    exact absurd hlt (not_lt.2 hle)
  · rw [hg]
    unfold lru.Cache.Get
    rw [hc]

/-! ## Where an entry of the expiry index comes from -/

theorem history_append (c : LRUCache V) (xs ys : List (Call V)) :
    history c (xs ++ ys) = history c xs ++ history (run c xs) ys := by
  induction xs generalizing c with
  | nil => rfl
  | cons x rest ih =>
    show (x, outcome c x) :: history (step c x) (rest ++ ys) = _
    rw [ih]
    rfl

/-- One call and the entry of `k` in the expiry index afterwards: either the call is a
`Set` of `k`, which filed this expiry and whose value is the one the recency store holds
for `k`; or the entry was there before, the call with its result left it alone, and a
value held for `k` afterwards was held before. -/
theorem step_entry (s : LRUCache V) (hs : 0 < s.cache.size) (call : Call V) (k : String)
    (e : Time) (h : mapGet (step s call).ttl k = some e) :
    (∃ v d, call = (call.1, Op.set k v d) ∧ e = call.1 + d ∧
      ∀ w, mapGet (step s call).cache.items k = some w → w = v) ∨
    (mapGet s.ttl k = some e ∧
      (∀ w, mapGet (step s call).cache.items k = some w → mapGet s.cache.items k = some w) ∧
      KeepsEntry k (call, outcome s call)) := by
  obtain ⟨t, op⟩ := call
  cases op with
  | set k0 v0 d0 =>
    have h : mapGet (mapSet s.ttl k0 (t + d0)) k = some e := h
    rw [mapGet_mapSet] at h
    by_cases hk : k = k0
    · subst hk
      simp only [if_true, Option.some.injEq] at h
      refine Or.inl ⟨v0, d0, rfl, h.symm, ?_⟩
      intro w hw
      have := lru_Add_mapGet_self s.cache k v0 hs
      have hw : mapGet (s.cache.Add k v0).1.items k = some w := hw
      rw [this] at hw
      exact (Option.some.inj hw).symm
    · simp only [hk, if_false] at h
      refine Or.inr ⟨h, ?_, ?_⟩
      · intro w hw
        exact lru_Add_mapGet_other s.cache k0 k v0 w hk hw
      · intro t'
        refine ⟨?_, ?_, ?_⟩
        · intro v d heq
          simp only [Prod.mk.injEq, Op.set.injEq] at heq
          exact hk heq.2.1.symm
        · simp
        · simp
  | delete k0 =>
    have h : mapGet (mapDelete s.ttl k0) k = some e := h
    rw [mapGet_mapDelete] at h
    by_cases hk : k = k0
    · simp [hk] at h
    · simp only [hk, if_false] at h
      refine Or.inr ⟨h, ?_, ?_⟩
      · intro w hw
        have hw : mapGet (mapDelete s.cache.items k0) k = some w := hw
        rw [mapGet_mapDelete] at hw
        simpa [hk] using hw
      · intro t'
        refine ⟨?_, ?_, ?_⟩
        · simp
        · intro heq
          simp only [Prod.mk.injEq, Op.delete.injEq] at heq
          exact hk heq.2.symm
        · simp
  | get k0 =>
    have h : mapGet (s.Get t k0).1.ttl k = some e := h
    show _ ∨ (_ ∧ (∀ w, mapGet (s.Get t k0).1.cache.items k = some w → _) ∧
      KeepsEntry k ((t, Op.get k0), some (s.Get t k0).2))
    rcases Get_cases s t k0 with ⟨_, hg⟩ | ⟨e2, _, _, hg⟩ | ⟨e2, _, _, hg⟩
    · rw [hg] at h ⊢
      refine Or.inr ⟨h, fun w hw => hw, ?_⟩
      intro t'
      refine ⟨by simp, by simp, ?_⟩
      intro heq
      simp only [Prod.mk.injEq, Option.some.injEq, Except.error.injEq] at heq
      exact absurd heq.2 (by decide)
    · rw [hg] at h ⊢
      have h : mapGet (mapDelete s.ttl k0) k = some e := h
      rw [mapGet_mapDelete] at h
      by_cases hk : k = k0
      · simp [hk] at h
      · simp only [hk, if_false] at h
        refine Or.inr ⟨h, ?_, ?_⟩
        · intro w hw
          have hw : mapGet (mapDelete s.cache.items k0) k = some w := hw
          rw [mapGet_mapDelete] at hw
          simpa [hk] using hw
        · intro t'
          refine ⟨by simp, by simp, ?_⟩
          intro heq
          simp only [Prod.mk.injEq, Op.get.injEq] at heq
          exact hk heq.1.2.symm
    · rw [hg] at h ⊢
      refine Or.inr ⟨h, ?_, ?_⟩
      · intro w hw
        have hw : mapGet (s.cache.Get k0).1.items k = some w := hw
        rw [lru_Get_mapGet] at hw
        exact hw
      · intro t'
        refine ⟨by simp, by simp, ?_⟩
        cases mapGet s.cache.items k0 with
        | none =>
          intro heq
          simp only [Prod.mk.injEq, Option.some.injEq, Except.error.injEq] at heq
          exact absurd heq.2 (by decide)
        | some w => simp

/-- Every entry of the expiry index of a reachable state was filed by a `Set` of its key,
with the expiry of that `Set`; no later call replaced or removed it; and a value that the
recency store holds for the key is the value of that `Set`. -/
theorem entry_provenance (c0 : LRUCache V) (hc0 : WellFormed c0) (hempty : c0.ttl = [])
    (calls : List (Call V)) (k : String) (e : Time)
    (h : mapGet (run c0 calls).ttl k = some e) :
    ∃ (before after : List (Call V)) (t : Time) (v : V) (d : Duration),
      calls = before ++ (t, Op.set k v d) :: after ∧ e = t + d ∧
      (∀ w, mapGet (run c0 calls).cache.items k = some w → w = v) ∧
      ∀ ev ∈ history (run c0 (before ++ [(t, Op.set k v d)])) after, KeepsEntry k ev := by
  induction calls using List.reverseRecOn generalizing e with
  | nil =>
    rw [show run c0 [] = c0 from rfl, hempty] at h
    simp [mapGet] at h
  | append_singleton calls call ih =>
    rw [run_snoc] at h ⊢
    have hpos : 0 < (run c0 calls).cache.size := (wellFormed_run calls c0 hc0).size_pos
    rcases step_entry (run c0 calls) hpos call k e h with
      ⟨v, d, hcall, he, hval⟩ | ⟨hprev, hval, hkeep⟩
    · refine ⟨calls, [], call.1, v, d, ?_, he, hval, ?_⟩
      · rw [← hcall]
      · intro ev hev
        simp [history] at hev
    · obtain ⟨before, after, t, v, d, hsplit, he, hv, hclean⟩ := ih e hprev
      refine ⟨before, after ++ [call], t, v, d, ?_, he, ?_, ?_⟩
      · rw [hsplit]
        simp
      · intro w hw
        exact hv w (hval w hw)
      · intro ev hev
        rw [history_append, List.mem_append] at hev
        rcases hev with hev | hev
        · exact hclean ev hev
        · have hrun : run (run c0 (before ++ [(t, Op.set k v d)])) after = run c0 calls := by
            rw [← run_append, hsplit]
            simp
          rw [hrun] at hev
          simp only [history, List.mem_singleton] at hev
          rw [hev]
          exact hkeep

/-! ## Single operations: what they change and what they leave -/

theorem lru_Add_evicted_of_full (c : lru.Cache V) (k : String) (v : V)
    (hk : mapGet c.items k = none) (hfull : c.Len = c.size) : (c.Add k v).2 = true := by
  unfold lru.Cache.Len at hfull
  unfold lru.Cache.Add
  rw [hk]
  dsimp only
  rw [if_pos]
  simp only [List.length_cons]
  omega

theorem lru_Add_present (c : lru.Cache V) (k : String) (v w : V)
    (hk : mapGet c.items k = some w) :
    c.Add k v = ({ c with items := (k, v) :: mapDelete c.items k }, false) := by
  unfold lru.Cache.Add
  rw [hk]

theorem mapGet_cons_mapDelete {β : Type} (m : List (String × β)) (k k' : String) (v : β) :
    mapGet ((k, v) :: mapDelete m k) k' = if k' = k then some v else mapGet m k' :=
  mapGet_mapSet m k k' v

theorem not_mem_mapKeys_mapDelete {β : Type} (m : List (String × β)) (k : String) :
    k ∉ mapKeys (mapDelete m k) := by
  rw [mem_mapKeys_mapDelete]
  simp

theorem mapGet_mapDelete_of_ne {β : Type} (m : List (String × β)) (k k' : String)
    (h : k' ≠ k) : mapGet (mapDelete m k) k' = mapGet m k' := by
  rw [mapGet_mapDelete]
  simp [h]

theorem Get_of_no_entry (c : LRUCache V) (now : Time) (k : String)
    (h : mapGet c.ttl k = none) : c.Get now k = (c, .error "key not found") := by
  unfold LRUCache.Get
  rw [h]

theorem Get_expired_state (c : LRUCache V) (now : Time) (k : String)
    (h : (c.Get now k).2 = .error "cache expired") :
    c.Get now k = (c.Delete k, .error "cache expired") := by
  rcases Get_cases c now k with ⟨_, hg⟩ | ⟨e, _, _, hg⟩ | ⟨e, _, _, hg⟩
  · rw [hg] at h
    simp only [Except.error.injEq] at h
    exact absurd h (by decide)
  · exact hg
  · rw [hg] at h
    cases hc : mapGet c.cache.items k with
    | none =>
      rw [hc] at h
      simp only [Except.error.injEq] at h
      exact absurd h (by decide)
    | some w =>
      rw [hc] at h
      cases h

/-! ## The duration stored at construction is never read -/

theorem Get_agree (cache : lru.Cache V) (ttl : List (String × Time)) (d1 d2 : Duration)
    (now : Time) (k : String) :
    ((⟨cache, ttl, d1⟩ : LRUCache V).Get now k).1.cache
      = ((⟨cache, ttl, d2⟩ : LRUCache V).Get now k).1.cache ∧
    ((⟨cache, ttl, d1⟩ : LRUCache V).Get now k).1.ttl
      = ((⟨cache, ttl, d2⟩ : LRUCache V).Get now k).1.ttl ∧
    ((⟨cache, ttl, d1⟩ : LRUCache V).Get now k).2
      = ((⟨cache, ttl, d2⟩ : LRUCache V).Get now k).2 := by
  unfold LRUCache.Get
  dsimp only
  cases mapGet ttl k with
  | none => exact ⟨rfl, rfl, rfl⟩
  | some e =>
    dsimp only
    by_cases h : now > e
    · simp [h]
    · simp only [h, if_false]
      rcases cache.Get k with ⟨c1, _ | v⟩
      · exact ⟨rfl, rfl, rfl⟩
      · exact ⟨rfl, rfl, rfl⟩

theorem step_agree (c1 c2 : LRUCache V) (hc : c1.cache = c2.cache) (ht : c1.ttl = c2.ttl)
    (call : Call V) :
    (step c1 call).cache = (step c2 call).cache ∧ (step c1 call).ttl = (step c2 call).ttl ∧
    outcome c1 call = outcome c2 call := by
  obtain ⟨cache1, ttl1, d1⟩ := c1
  obtain ⟨cache2, ttl2, d2⟩ := c2
  simp only at hc ht
  subst hc
  subst ht
  obtain ⟨now, op⟩ := call
  cases op with
  | set k v d => exact ⟨rfl, rfl, rfl⟩
  | get k =>
    have h := Get_agree cache1 ttl1 d1 d2 now k
    refine ⟨h.1, h.2.1, ?_⟩
    show some _ = some _
    rw [h.2.2]
  | delete k => exact ⟨rfl, rfl, rfl⟩

theorem run_agree (calls : List (Call V)) (c1 c2 : LRUCache V) (hc : c1.cache = c2.cache)
    (ht : c1.ttl = c2.ttl) :
    history c1 calls = history c2 calls ∧ (run c1 calls).cache = (run c2 calls).cache ∧
    (run c1 calls).ttl = (run c2 calls).ttl := by
  induction calls generalizing c1 c2 with
  | nil => exact ⟨rfl, hc, ht⟩
  | cons call rest ih =>
    have hs := step_agree c1 c2 hc ht call
    have hr := ih (step c1 call) (step c2 call) hs.1 hs.2.1
    refine ⟨?_, hr.2.1, hr.2.2⟩
    show (call, outcome c1 call) :: history (step c1 call) rest
      = (call, outcome c2 call) :: history (step c2 call) rest
    rw [hs.2.2, hr.1]

/-! ## The claims -/

/-- C1 (evaluation of the code where the claim fails): on a cache of capacity 1,
`Set("a")` followed by `Set("b")` makes the recency store evict `"a"`, and once `Set` has
returned the recency store holds only `"b"` while the expiry index still holds `"a"` and
`"b"`: the two key sets differ. -/
theorem C1_eviction_not_mirrored_in_expiry_index :
    NewLRUCache 1 0 = some (⟨⟨1, []⟩, [], 0⟩ : LRUCache Nat) ∧
    (((⟨⟨1, []⟩, [], 0⟩ : LRUCache Nat).Set 0 "a" 1 10).cache.Add "b" 2).2 = true ∧
    (run (⟨⟨1, []⟩, [], 0⟩ : LRUCache Nat)
      [(0, .set "a" 1 10), (1, .set "b" 2 10)]).cache.keys = ["b"] ∧
    mapKeys (run (⟨⟨1, []⟩, [], 0⟩ : LRUCache Nat)
      [(0, .set "a" 1 10), (1, .set "b" 2 10)]).ttl = ["b", "a"] := by
  decide

/-- C2: for every cache built by `NewLRUCache(size, ttl)` with `size > 0` and every
sequence of `Set`, `Get` and `Delete` calls, the recency store holds at most `size` keys
afterwards (every prefix of a sequence is a sequence, so this holds after each call). -/
theorem C2_capacity_bound (size : Int) (ttl : Duration) (c0 : LRUCache V)
    (hsize : 0 < size) (hnew : NewLRUCache size ttl = some c0) (calls : List (Call V)) :
    ((run c0 calls).cache.Len : Int) ≤ size := by
  have hwf := wellFormed_run calls c0 (wellFormed_new size ttl c0 hnew)
  have hlen := hwf.len_le
  rw [run_size] at hlen
  obtain ⟨_, rfl⟩ := NewLRUCache_eq size ttl c0 hnew
  have : (((run ({ cache := { size := size.toNat, items := [] }, ttl := [], expiryDur := ttl } :
      LRUCache V) calls).cache.Len : Nat) : Int) ≤ (size.toNat : Int) := by
    exact_mod_cast hlen
  omega

theorem C2_capacity_bound_witness :
    ((run (⟨⟨2, []⟩, [], 0⟩ : LRUCache Nat)
      [(0, .set "a" 1 10), (1, .set "b" 2 10), (2, .get "a"), (3, .set "c" 3 10),
        (4, .delete "a"), (5, .set "d" 4 10), (6, .set "e" 5 10)]).cache.Len : Int) ≤ 2 :=
  C2_capacity_bound 2 0 ⟨⟨2, []⟩, [], 0⟩ (by decide) (by decide) _

/-- C3 (the claim fails at the boundary): a `Set` with `ttl = 0` at instant 5 files the
expiry 5, and a `Get` at the same instant 5, where `now ≥ expires_at`, returns the value
and not the Expired outcome. -/
theorem C3_boundary_counterexample :
    mapGet ((⟨⟨1, []⟩, [], 0⟩ : LRUCache Nat).Set 5 "k" 7 0).ttl "k" = some 5 ∧
    (((⟨⟨1, []⟩, [], 0⟩ : LRUCache Nat).Set 5 "k" 7 0).Get 5 "k").2 = .ok 7 ∧
    ¬ ((((⟨⟨1, []⟩, [], 0⟩ : LRUCache Nat).Set 5 "k" 7 0).Get 5 "k").2 = .error "cache expired"
        ↔ (5 : Time) ≥ 5) := by
  decide

/-- C3 (amended): for every key with an entry `expires_at` in the expiry index and every
instant `now`, `Get` returns the Expired outcome if and only if `now` is strictly after
`expires_at`; at the boundary `now = expires_at` it returns the value of a key that is in
the recency store. -/
theorem C3_expired_iff_strictly_after (c : LRUCache V) (now : Time) (k : String) (e : Time)
    (h : mapGet c.ttl k = some e) :
    ((c.Get now k).2 = .error "cache expired" ↔ now > e) ∧
    (now = e → ∀ v, mapGet c.cache.items k = some v → (c.Get now k).2 = .ok v) := by
  rcases Get_cases c now k with ⟨hn, _⟩ | ⟨e', he, hlt, hg⟩ | ⟨e', he, hge, hg⟩
  · rw [hn] at h
    cases h
  · rw [h] at he
    cases he
    rw [hg]
    refine ⟨by simp [hlt], ?_⟩
    intro heq
    subst heq
    exact absurd hlt (lt_irrefl _)
  · rw [h] at he
    cases he
    rw [hg]
    refine ⟨?_, ?_⟩
    · cases mapGet c.cache.items k <;> simp [hge]
    · intro _ v hv
      simp [hv]

theorem C3_expired_iff_strictly_after_witness :
    ((((⟨⟨1, []⟩, [], 0⟩ : LRUCache Nat).Set 5 "k" 7 0).Get 5 "k").2 = .error "cache expired"
      ↔ (5 : Time) > 5) ∧
    ((5 : Time) = 5 → ∀ v,
      mapGet ((⟨⟨1, []⟩, [], 0⟩ : LRUCache Nat).Set 5 "k" 7 0).cache.items "k" = some v →
      (((⟨⟨1, []⟩, [], 0⟩ : LRUCache Nat).Set 5 "k" 7 0).Get 5 "k").2 = .ok v) :=
  C3_expired_iff_strictly_after ((⟨⟨1, []⟩, [], 0⟩ : LRUCache Nat).Set 5 "k" 7 0) 5 "k" 5
    (by decide)

/-- C4: after any sequence of `Set`, `Get` and `Delete` calls on a freshly constructed
cache, if `Get(k)` at instant `now` returns a value `v` without error, then some
`Set(k, v, d)` at an instant `t` is in the sequence, no call after it is a `Set` or a
`Delete` of `k` or a `Get` of `k` that returned the Expired outcome, and `now` is not after
its expiry `t + d`.  And in every state, a key whose expiry in the expiry index is before
`now` is never answered with a value, whatever the recency store holds. -/
theorem C4_returned_value_is_from_latest_set (size : Int) (ttl : Duration) (c0 : LRUCache V)
    (hnew : NewLRUCache size ttl = some c0) (calls : List (Call V)) (now : Time)
    (k : String) :
    (∀ v, ((run c0 calls).Get now k).2 = .ok v →
      ∃ (before after : List (Call V)) (t : Time) (d : Duration),
        calls = before ++ (t, Op.set k v d) :: after ∧ now ≤ t + d ∧
        ∀ ev ∈ history (run c0 (before ++ [(t, Op.set k v d)])) after, ∀ t' : Time,
          (∀ (v' : V) (d' : Duration), ev.1 ≠ (t', Op.set k v' d')) ∧
          ev.1 ≠ (t', Op.delete k) ∧
          ev ≠ ((t', Op.get k), some (.error "cache expired"))) ∧
    (∀ (c : LRUCache V) (e : Time), mapGet c.ttl k = some e → e < now →
      ∀ v, (c.Get now k).2 ≠ .ok v) := by
  refine ⟨?_, ?_⟩
  · intro v hget
    obtain ⟨e, he, hle, hc⟩ := (Get_ok_iff _ now k v).1 hget
    have hc0 := NewLRUCache_eq size ttl c0 hnew
    have hempty : c0.ttl = [] := by rw [hc0.2]
    obtain ⟨before, after, t, v2, d, hsplit, het, hval, hclean⟩ :=
      entry_provenance c0 (wellFormed_new size ttl c0 hnew) hempty calls k e he
    have hv : v = v2 := hval v hc
    subst hv
    subst het
    exact ⟨before, after, t, d, hsplit, hle, hclean⟩
  · intro c e he hlt v hv
    obtain ⟨e2, he2, hle, _⟩ := (Get_ok_iff c now k v).1 hv
    rw [he] at he2
    cases he2
    exact absurd hlt (not_lt.2 hle)

theorem C4_returned_value_is_from_latest_set_witness :
    ∃ (before after : List (Call Nat)) (t : Time) (d : Duration),
      [(0, Op.set "k" 1 10), (1, Op.set "k" 2 10), (2, Op.get "k"), (3, Op.set "x" 0 1)]
        = before ++ (t, Op.set "k" 2 d) :: after ∧ 5 ≤ t + d ∧
      ∀ ev ∈ history (run (⟨⟨2, []⟩, [], 0⟩ : LRUCache Nat)
          (before ++ [(t, Op.set "k" 2 d)])) after, ∀ t' : Time,
        (∀ (v' : Nat) (d' : Duration), ev.1 ≠ (t', Op.set "k" v' d')) ∧
        ev.1 ≠ (t', Op.delete "k") ∧
        ev ≠ ((t', Op.get "k"), some (.error "cache expired")) :=
  (C4_returned_value_is_from_latest_set 2 0 ⟨⟨2, []⟩, [], 0⟩ (by decide)
    [(0, Op.set "k" 1 10), (1, Op.set "k" 2 10), (2, Op.get "k"), (3, Op.set "x" 0 1)]
    5 "k").1 2 (by decide)

/-- C5 (evaluation of the code where the claim fails): on a cache of capacity 1, `"a"` is
set at instant 0 with a ttl of 10 and then evicted by `Set("b")` at instant 1; it is not
set again.  A `Get("a")` at instant 5 returns "key not found", but a `Get("a")` at instant
100 returns "cache expired". -/
theorem C5_evicted_key_reports_expired :
    NewLRUCache 1 0 = some (⟨⟨1, []⟩, [], 0⟩ : LRUCache Nat) ∧
    (((⟨⟨1, []⟩, [], 0⟩ : LRUCache Nat).Set 0 "a" 1 10).cache.Add "b" 2).2 = true ∧
    "a" ∉ (run (⟨⟨1, []⟩, [], 0⟩ : LRUCache Nat)
      [(0, .set "a" 1 10), (1, .set "b" 2 10)]).cache.keys ∧
    ((run (⟨⟨1, []⟩, [], 0⟩ : LRUCache Nat)
      [(0, .set "a" 1 10), (1, .set "b" 2 10)]).Get 5 "a").2 = .error "key not found" ∧
    ((run (⟨⟨1, []⟩, [], 0⟩ : LRUCache Nat)
      [(0, .set "a" 1 10), (1, .set "b" 2 10)]).Get 100 "a").2 = .error "cache expired" := by
  decide

/-- C6: for every capacity `n > 0` and every sequence of more than `n` `Set` calls with
pairwise distinct keys on a freshly constructed cache, read at an instant `now` that is
after none of their expiries, the keys for which `Get` returns a value are exactly the
keys of the last `n` calls, and these are `n` different keys. -/
theorem C6_retains_exactly_the_last_n_keys (n : Int) (ttl : Duration) (c0 : LRUCache V)
    (hn : 0 < n) (hnew : NewLRUCache n ttl = some c0) (sets : List (SetCall V))
    (hm : n < sets.length) (hdistinct : (sets.map SetCall.key).Nodup) (now : Time)
    (hlive : ∀ s ∈ sets, now ≤ s.now + s.expiration) :
    (((sets.map SetCall.key).drop (sets.length - n.toNat)).length : Int) = n ∧
    ((sets.map SetCall.key).drop (sets.length - n.toNat)).Nodup ∧
    ∀ k, (∃ v, ((run c0 (sets.map SetCall.toCall)).Get now k).2 = .ok v)
      ↔ k ∈ (sets.map SetCall.key).drop (sets.length - n.toNat) := by
  obtain ⟨_, hc0⟩ := NewLRUCache_eq n ttl c0 hnew
  have hempty : c0.cache.items = [] := by rw [hc0]
  have hsize : c0.cache.size = n.toNat := by rw [hc0]
  have hitems := run_sets_items c0 hempty sets hdistinct
  rw [hsize] at hitems
  have hkeys : ∀ k, k ∈ mapKeys (run c0 (sets.map SetCall.toCall)).cache.items
      ↔ k ∈ (sets.map SetCall.key).drop (sets.length - n.toNat) := by
    intro k
    rw [hitems]
    unfold mapKeys
    rw [List.map_take, List.map_reverse, List.map_map, List.take_reverse, List.mem_reverse,
      List.length_map]
    rfl
  refine ⟨?_, ?_, ?_⟩
  · rw [List.length_drop, List.length_map]
    omega
  · exact hdistinct.sublist (List.drop_sublist _ _)
  · intro k
    rw [← hkeys k]
    constructor
    · rintro ⟨v, hv⟩
      obtain ⟨e, _, _, hc⟩ := (Get_ok_iff _ now k v).1 hv
      exact (mem_mapKeys_iff _ k).2 ⟨v, hc⟩
    · intro hk
      obtain ⟨v, hv⟩ := (mem_mapKeys_iff _ k).1 hk
      have hk2 := List.mem_of_mem_drop ((hkeys k).1 hk)
      obtain ⟨s, hs, rfl⟩ := List.mem_map.1 hk2
      exact ⟨v, (Get_ok_iff _ now s.key v).2
        ⟨_, run_sets_ttl _ sets hdistinct s hs, hlive s hs, hv⟩⟩

theorem C6_retains_exactly_the_last_n_keys_witness :
    ((((([⟨0, "a", 1, 10⟩, ⟨1, "b", 2, 10⟩, ⟨2, "c", 3, 10⟩] : List (SetCall Nat)).map
      SetCall.key).drop (3 - (2 : Int).toNat)).length : Nat) : Int) = 2 ∧
    ((([⟨0, "a", 1, 10⟩, ⟨1, "b", 2, 10⟩, ⟨2, "c", 3, 10⟩] : List (SetCall Nat)).map
      SetCall.key).drop (3 - (2 : Int).toNat)).Nodup ∧
    ∀ k, (∃ v, ((run (⟨⟨2, []⟩, [], 0⟩ : LRUCache Nat)
        (([⟨0, "a", 1, 10⟩, ⟨1, "b", 2, 10⟩, ⟨2, "c", 3, 10⟩] : List (SetCall Nat)).map
          SetCall.toCall)).Get 5 k).2 = .ok v)
      ↔ k ∈ (([⟨0, "a", 1, 10⟩, ⟨1, "b", 2, 10⟩, ⟨2, "c", 3, 10⟩] : List (SetCall Nat)).map
        SetCall.key).drop (3 - (2 : Int).toNat) :=
  C6_retains_exactly_the_last_n_keys 2 0 ⟨⟨2, []⟩, [], 0⟩ (by decide) (by decide)
    [⟨0, "a", 1, 10⟩, ⟨1, "b", 2, 10⟩, ⟨2, "c", 3, 10⟩] (by decide) (by decide) 5 (by decide)

/-- C7: after any sequence of calls on a freshly constructed cache (of `Set` and `Delete`,
and of `Get` as well), the keys for which `Get` returns a value at some instant, that is
with expiry ignored, are exactly the keys held in the recency store, and every key of the
recency store has an entry in the expiry index. -/
theorem C7_answerable_keys_are_recency_store_keys (size : Int) (ttl : Duration)
    (c0 : LRUCache V) (hnew : NewLRUCache size ttl = some c0) (calls : List (Call V))
    (k : String) :
    ((∃ now v, ((run c0 calls).Get now k).2 = .ok v) ↔ k ∈ (run c0 calls).cache.keys) ∧
    (k ∈ (run c0 calls).cache.keys → k ∈ mapKeys (run c0 calls).ttl) := by
  have hwf := wellFormed_run calls c0 (wellFormed_new size ttl c0 hnew)
  generalize run c0 calls = c at hwf
  refine ⟨⟨?_, ?_⟩, hwf.cache_sub k⟩
  · rintro ⟨now, v, hv⟩
    rcases Get_cases c now k with ⟨_, hg⟩ | ⟨e, _, _, hg⟩ | ⟨e, _, _, hg⟩
    · rw [hg] at hv
      cases hv
    · rw [hg] at hv
      cases hv
    · rw [hg] at hv
      cases hc : mapGet c.cache.items k with
      | none =>
        rw [hc] at hv
        cases hv
      | some w => exact (mem_mapKeys_iff c.cache.items k).2 ⟨w, hc⟩
  · intro hk
    obtain ⟨e, he⟩ := (mem_mapKeys_iff c.ttl k).1 (hwf.cache_sub k hk)
    obtain ⟨w, hw⟩ := (mem_mapKeys_iff c.cache.items k).1 hk
    exact ⟨e, w, (Get_ok_iff c e k w).2 ⟨e, he, le_refl _, hw⟩⟩

theorem C7_answerable_keys_are_recency_store_keys_witness :
    ((∃ now v, ((run (⟨⟨1, []⟩, [], 0⟩ : LRUCache Nat)
        [(0, .set "a" 1 10), (1, .set "b" 2 10), (2, .delete "z")]).Get now "b").2 = .ok v)
      ↔ "b" ∈ (run (⟨⟨1, []⟩, [], 0⟩ : LRUCache Nat)
        [(0, .set "a" 1 10), (1, .set "b" 2 10), (2, .delete "z")]).cache.keys) ∧
    ("b" ∈ (run (⟨⟨1, []⟩, [], 0⟩ : LRUCache Nat)
        [(0, .set "a" 1 10), (1, .set "b" 2 10), (2, .delete "z")]).cache.keys →
      "b" ∈ mapKeys (run (⟨⟨1, []⟩, [], 0⟩ : LRUCache Nat)
        [(0, .set "a" 1 10), (1, .set "b" 2 10), (2, .delete "z")]).ttl) :=
  C7_answerable_keys_are_recency_store_keys 1 0 ⟨⟨1, []⟩, [], 0⟩ (by decide)
    [(0, .set "a" 1 10), (1, .set "b" 2 10), (2, .delete "z")] "b"

/-- C8: for every state of a cache of capacity at least 1, every key, value and
`ttl > 0`, `Set(k, v, ttl)` at instant `t` followed directly by `Get(k)` at an instant
before `t + ttl` returns `v` without error, and the same `Get` at an instant after
`t + ttl` returns the Expired outcome. -/
theorem C8_set_get_round_trip (c : LRUCache V) (hcap : 1 ≤ c.cache.size) (t now : Time)
    (k : String) (v : V) (ttl : Duration) (_httl : 0 < ttl) :
    (now < t + ttl → ((c.Set t k v ttl).Get now k).2 = .ok v) ∧
    (t + ttl < now → ((c.Set t k v ttl).Get now k).2 = .error "cache expired") := by
  have h := Get_after_Set c hcap t now k v ttl
  exact ⟨fun hlt => h.1 (le_of_lt hlt), h.2⟩

theorem C8_set_get_round_trip_witness :
    (((⟨⟨1, [("x", 0)]⟩, [("x", 3)], 0⟩ : LRUCache Nat).Set 0 "k" 7 100000000).Get
      99999999 "k").2 = .ok 7 ∧
    (((⟨⟨1, [("x", 0)]⟩, [("x", 3)], 0⟩ : LRUCache Nat).Set 0 "k" 7 100000000).Get
      100000001 "k").2 = .error "cache expired" :=
  ⟨(C8_set_get_round_trip ⟨⟨1, [("x", 0)]⟩, [("x", 3)], 0⟩ (by decide) 0 99999999 "k" 7
      100000000 (by decide)).1 (by decide),
    (C8_set_get_round_trip ⟨⟨1, [("x", 0)]⟩, [("x", 3)], 0⟩ (by decide) 0 100000001 "k" 7
      100000000 (by decide)).2 (by decide)⟩

/-- C9: after `Set(k, v, ttl)` executed at instant `now` the expiry index maps `k` to
exactly `now + ttl`, whatever the state before; hence on a cache of capacity at least 1
an earlier `Set(k, v1, d1)` followed by this `Set` and by a `Get(k)` before `now + ttl`
returns `v`, whether or not the first expiry has elapsed. -/
theorem C9_overwrite_replaces_expiry (c : LRUCache V) (now : Time) (k : String) (v : V)
    (ttl : Duration) :
    mapGet (c.Set now k v ttl).ttl k = some (now + ttl) ∧
    ∀ (t1 : Time) (v1 : V) (d1 : Duration) (later : Time), 1 ≤ c.cache.size →
      later < now + ttl →
      (((c.Set t1 k v1 d1).Set now k v ttl).Get later k).2 = .ok v := by
  refine ⟨?_, ?_⟩
  · show mapGet (mapSet c.ttl k (now + ttl)) k = some (now + ttl)
    rw [mapGet_mapSet]
    simp
  · intro t1 v1 d1 later hcap hlt
    have hcap2 : 0 < (c.Set t1 k v1 d1).cache.size := by
      show 0 < (c.cache.Add k v1).1.size
      rw [lru_Add_size]
      exact hcap
    exact (Get_after_Set (c.Set t1 k v1 d1) hcap2 now later k v ttl).1 (le_of_lt hlt)

theorem C9_overwrite_replaces_expiry_witness :
    mapGet ((⟨⟨1, []⟩, [], 0⟩ : LRUCache Nat).Set 0 "k" 2 3600000000000).ttl "k"
      = some (0 + 3600000000000) ∧
    ((((⟨⟨1, []⟩, [], 0⟩ : LRUCache Nat).Set 0 "k" 1 10000000).Set 0 "k" 2
      3600000000000).Get 50000000 "k").2 = .ok 2 :=
  ⟨(C9_overwrite_replaces_expiry ⟨⟨1, []⟩, [], 0⟩ 0 "k" 2 3600000000000).1,
    (C9_overwrite_replaces_expiry ⟨⟨1, []⟩, [], 0⟩ 0 "k" 2 3600000000000).2 0 1 10000000
      50000000 (by decide) (by decide)⟩

/-- C10: in a full cache of capacity `n ≥ 2`, a `Get(a)` that returns a value followed by
a `Set` of a key `k` that is not in the recency store leaves the store with `k` first, `a`
second and then the other entries without their last one: `a` is not evicted and is still
retrievable until its expiry, and the evicted key is the least recently used of the keys
other than `a`. -/
theorem C10_recency_promotion (c : LRUCache V) (hwf : WellFormed c)
    (hcap : 2 ≤ c.cache.size) (hfull : c.cache.Len = c.cache.size)
    (now : Time) (a : String) (v : V) (hget : (c.Get now a).2 = .ok v)
    (t : Time) (k : String) (w : V) (d : Duration) (hk : k ∉ c.cache.keys) :
    ((c.Get now a).1.Set t k w d).cache.items
      = (k, w) :: (a, v) :: (mapDelete c.cache.items a).dropLast ∧
    a ∈ ((c.Get now a).1.Set t k w d).cache.keys ∧
    (∃ lruOther, (mapDelete c.cache.items a).getLast? = some lruOther ∧
      lruOther.1 ≠ a ∧ lruOther.1 ∈ c.cache.keys ∧
      lruOther.1 ∉ ((c.Get now a).1.Set t k w d).cache.keys) ∧
    (∀ later e, mapGet c.ttl a = some e → later ≤ e →
      (((c.Get now a).1.Set t k w d).Get later a).2 = .ok v) := by
  obtain ⟨e0, he0, _, hca⟩ := (Get_ok_iff c now a v).1 hget
  have hstate := Get_ok_state c now a v hget
  have hlen := mapDelete_length_of_nodup c.cache.items a v hwf.cache_nodup hca
  have hfull2 : c.cache.items.length = c.cache.size := hfull
  have hka : k ≠ a := by
    intro h
    subst h
    exact hk ((mem_mapKeys_iff c.cache.items k).2 ⟨v, hca⟩)
  have hfresh : mapGet (c.Get now a).1.cache.items k = none := by
    rw [hstate]
    show mapGet (mapSet c.cache.items a v) k = none
    rw [mapGet_mapSet]
    simp only [hka, if_false]
    exact (not_mem_mapKeys_iff c.cache.items k).1 hk
  have hfull3 : (c.Get now a).1.cache.Len = (c.Get now a).1.cache.size := by
    rw [hstate]
    show ((a, v) :: mapDelete c.cache.items a).length = c.cache.size
    simp only [List.length_cons]
    omega
  have hne : mapDelete c.cache.items a ≠ [] := by
    intro h
    rw [h] at hlen
    simp at hlen
    omega
  obtain ⟨o, os, hos⟩ := List.exists_cons_of_ne_nil hne
  have hitems : ((c.Get now a).1.Set t k w d).cache.items
      = (k, w) :: (a, v) :: (mapDelete c.cache.items a).dropLast := by
    show ((c.Get now a).1.cache.Add k w).1.items = _
    rw [lru_Add_full _ k w hfresh hfull3, hstate]
    show ((k, w) :: (a, v) :: mapDelete c.cache.items a).dropLast = _
    rw [hos]
    rfl
  have hothers_nodup : (mapKeys (mapDelete c.cache.items a)).Nodup :=
    nodup_mapKeys_mapDelete c.cache.items a hwf.cache_nodup
  refine ⟨hitems, ?_, ?_, ?_⟩
  · unfold lru.Cache.keys
    rw [hitems]
    simp [mapKeys]
  · cases hl : (mapDelete c.cache.items a).getLast? with
    | none => exact absurd (List.getLast?_eq_none_iff.1 hl) hne
    | some x =>
      have hmem : x ∈ mapDelete c.cache.items a := List.mem_of_getLast?_eq_some hl
      have hxkey : x.1 ∈ mapKeys (mapDelete c.cache.items a) :=
        List.mem_map_of_mem Prod.fst hmem
      have hx := (mem_mapKeys_mapDelete c.cache.items a x.1).1 hxkey
      have hsplit : (mapDelete c.cache.items a).dropLast ++ [x] = mapDelete c.cache.items a :=
        List.dropLast_append_getLast? x hl
      rw [← hsplit] at hothers_nodup
      unfold mapKeys at hothers_nodup
      rw [List.map_append, List.nodup_append] at hothers_nodup
      refine ⟨x, rfl, hx.1, hx.2, ?_⟩
      unfold lru.Cache.keys
      rw [hitems]
      simp only [mapKeys, List.map_cons, List.mem_cons, not_or]
      refine ⟨?_, hx.1, ?_⟩
      · intro h
        exact hk (h ▸ hx.2)
      · intro h
        exact hothers_nodup.2.2 h (by simp)
  · intro later e he hle
    refine (Get_ok_iff _ later a v).2 ⟨e, ?_, hle, ?_⟩
    · show mapGet (mapSet (c.Get now a).1.ttl k (t + d)) a = some e
      rw [mapGet_mapSet, hstate]
      simp only [hka.symm, if_false]
      exact he
    · rw [hitems]
      simp [mapGet, hka]

/-- The scenario of the spec for C10: capacity 2, `Set a`, `Set b`, `Get a`, `Set c`. -/
theorem C10_recency_promotion_witness :
    (((run (⟨⟨2, []⟩, [], 0⟩ : LRUCache Nat) [(0, .set "a" 1 10), (1, .set "b" 2 10)]).Get
      2 "a").1.Set 3 "c" 3 10).cache.items
      = ("c", 3) :: ("a", 1) :: (mapDelete (run (⟨⟨2, []⟩, [], 0⟩ : LRUCache Nat)
          [(0, .set "a" 1 10), (1, .set "b" 2 10)]).cache.items "a").dropLast ∧
    "a" ∈ (((run (⟨⟨2, []⟩, [], 0⟩ : LRUCache Nat) [(0, .set "a" 1 10),
      (1, .set "b" 2 10)]).Get 2 "a").1.Set 3 "c" 3 10).cache.keys ∧
    (∃ lruOther, (mapDelete (run (⟨⟨2, []⟩, [], 0⟩ : LRUCache Nat)
          [(0, .set "a" 1 10), (1, .set "b" 2 10)]).cache.items "a").getLast? = some lruOther ∧
      lruOther.1 ≠ "a" ∧
      lruOther.1 ∈ (run (⟨⟨2, []⟩, [], 0⟩ : LRUCache Nat)
          [(0, .set "a" 1 10), (1, .set "b" 2 10)]).cache.keys ∧
      lruOther.1 ∉ (((run (⟨⟨2, []⟩, [], 0⟩ : LRUCache Nat) [(0, .set "a" 1 10),
        (1, .set "b" 2 10)]).Get 2 "a").1.Set 3 "c" 3 10).cache.keys) ∧
    (∀ later e, mapGet (run (⟨⟨2, []⟩, [], 0⟩ : LRUCache Nat)
          [(0, .set "a" 1 10), (1, .set "b" 2 10)]).ttl "a" = some e → later ≤ e →
      ((((run (⟨⟨2, []⟩, [], 0⟩ : LRUCache Nat) [(0, .set "a" 1 10),
        (1, .set "b" 2 10)]).Get 2 "a").1.Set 3 "c" 3 10).Get later "a").2 = .ok 1) :=
  C10_recency_promotion
    (run (⟨⟨2, []⟩, [], 0⟩ : LRUCache Nat) [(0, .set "a" 1 10), (1, .set "b" 2 10)])
    (wellFormed_run _ _ (wellFormed_new 2 0 _ (by decide))) (by decide) (by decide)
    2 "a" 1 (by decide) 3 "c" 3 10 (by decide)

/-- C11: in a well-formed cache whose recency store is full, `Set(k, v, ttl)` of a key
that is not in the store makes the store evict (the `Add` reports it) and leaves it with
`k` first, holding `v`, followed by the old entries without their last one, in their old
order and with their old values; the last old entry, the least recently used one, is the
one key that is gone, and the store holds as many keys as before. -/
theorem C11_set_new_key_into_full_store (c : LRUCache V) (hwf : WellFormed c)
    (hfull : c.cache.Len = c.cache.size) (t : Time) (k : String) (v : V) (d : Duration)
    (hk : k ∉ c.cache.keys) :
    (c.cache.Add k v).2 = true ∧
    (c.Set t k v d).cache.items = (k, v) :: c.cache.items.dropLast ∧
    (c.Set t k v d).cache.Len = c.cache.Len ∧
    ∃ lruEntry, c.cache.items.getLast? = some lruEntry ∧
      c.cache.items = c.cache.items.dropLast ++ [lruEntry] ∧
      lruEntry.1 ∉ (c.Set t k v d).cache.keys := by
  have hfresh : mapGet c.cache.items k = none := (not_mem_mapKeys_iff c.cache.items k).1 hk
  have hpos := hwf.size_pos
  have hlen : 0 < c.cache.items.length := by
    have : c.cache.items.length = c.cache.size := hfull
    omega
  have hne : c.cache.items ≠ [] := List.ne_nil_of_length_pos hlen
  obtain ⟨o, os, hos⟩ := List.exists_cons_of_ne_nil hne
  have hitems : (c.Set t k v d).cache.items = (k, v) :: c.cache.items.dropLast := by
    show (c.cache.Add k v).1.items = _
    rw [lru_Add_full c.cache k v hfresh hfull, hos]
    rfl
  refine ⟨lru_Add_evicted_of_full c.cache k v hfresh hfull, hitems, ?_, ?_⟩
  · unfold lru.Cache.Len
    rw [hitems]
    simp only [List.length_cons, List.length_dropLast]
    omega
  · cases hl : c.cache.items.getLast? with
    | none => exact absurd (List.getLast?_eq_none_iff.1 hl) hne
    | some x =>
      have hsplit : c.cache.items.dropLast ++ [x] = c.cache.items :=
        List.dropLast_append_getLast? x hl
      have hxmem : x.1 ∈ c.cache.keys :=
        List.mem_map_of_mem Prod.fst (List.mem_of_getLast?_eq_some hl)
      have hnd : (mapKeys c.cache.items).Nodup := hwf.cache_nodup
      rw [← hsplit] at hnd
      unfold mapKeys at hnd
      rw [List.map_append, List.nodup_append] at hnd
      refine ⟨x, rfl, hsplit.symm, ?_⟩
      unfold lru.Cache.keys
      rw [hitems]
      simp only [mapKeys, List.map_cons, List.mem_cons, not_or]
      refine ⟨?_, ?_⟩
      · intro h
        exact hk (h ▸ hxmem)
      · intro h
        exact hnd.2.2 h (by simp)

theorem C11_set_new_key_into_full_store_witness :
    ((run (⟨⟨2, []⟩, [], 0⟩ : LRUCache Nat)
      [(0, .set "a" 1 10), (1, .set "b" 2 10)]).cache.Add "c" 3).2 = true ∧
    ((run (⟨⟨2, []⟩, [], 0⟩ : LRUCache Nat)
      [(0, .set "a" 1 10), (1, .set "b" 2 10)]).Set 2 "c" 3 10).cache.items
      = ("c", 3) :: (run (⟨⟨2, []⟩, [], 0⟩ : LRUCache Nat)
        [(0, .set "a" 1 10), (1, .set "b" 2 10)]).cache.items.dropLast ∧
    ((run (⟨⟨2, []⟩, [], 0⟩ : LRUCache Nat)
      [(0, .set "a" 1 10), (1, .set "b" 2 10)]).Set 2 "c" 3 10).cache.Len
      = (run (⟨⟨2, []⟩, [], 0⟩ : LRUCache Nat)
        [(0, .set "a" 1 10), (1, .set "b" 2 10)]).cache.Len ∧
    ∃ lruEntry, (run (⟨⟨2, []⟩, [], 0⟩ : LRUCache Nat)
        [(0, .set "a" 1 10), (1, .set "b" 2 10)]).cache.items.getLast? = some lruEntry ∧
      (run (⟨⟨2, []⟩, [], 0⟩ : LRUCache Nat)
        [(0, .set "a" 1 10), (1, .set "b" 2 10)]).cache.items
        = (run (⟨⟨2, []⟩, [], 0⟩ : LRUCache Nat)
          [(0, .set "a" 1 10), (1, .set "b" 2 10)]).cache.items.dropLast ++ [lruEntry] ∧
      lruEntry.1 ∉ ((run (⟨⟨2, []⟩, [], 0⟩ : LRUCache Nat)
        [(0, .set "a" 1 10), (1, .set "b" 2 10)]).Set 2 "c" 3 10).cache.keys :=
  C11_set_new_key_into_full_store
    (run (⟨⟨2, []⟩, [], 0⟩ : LRUCache Nat) [(0, .set "a" 1 10), (1, .set "b" 2 10)])
    (wellFormed_run _ _ (wellFormed_new 2 0 _ (by decide))) (by decide) 2 "c" 3 10
    (by decide)

/-- C12: in every state, `Set(k, v, ttl)` of a key that is in the recency store evicts
nothing (the `Add` reports no eviction, whatever the fill of the store), leaves the store
with `k` first, holding `v`, followed by the other entries in their old order, keeps the
key set of the store, and keeps the value of every other key. -/
theorem C12_set_present_key_overwrites (c : LRUCache V) (t : Time) (k : String) (v : V)
    (d : Duration) (hk : k ∈ c.cache.keys) :
    (c.cache.Add k v).2 = false ∧
    (c.Set t k v d).cache.items
      = (k, v) :: c.cache.items.filter (fun e => decide (e.1 ≠ k)) ∧
    (∀ k', k' ∈ (c.Set t k v d).cache.keys ↔ k' ∈ c.cache.keys) ∧
    mapGet (c.Set t k v d).cache.items k = some v ∧
    (∀ k', k' ≠ k →
      mapGet (c.Set t k v d).cache.items k' = mapGet c.cache.items k') := by
  obtain ⟨w, hw⟩ := (mem_mapKeys_iff c.cache.items k).1 hk
  have hadd := lru_Add_present c.cache k v w hw
  have hitems : (c.Set t k v d).cache.items = (k, v) :: mapDelete c.cache.items k := by
    show (c.cache.Add k v).1.items = _
    rw [hadd]
  refine ⟨by rw [hadd], hitems, ?_, ?_, ?_⟩
  · intro k'
    unfold lru.Cache.keys
    rw [hitems, mem_mapKeys_iff, mem_mapKeys_iff, mapGet_cons_mapDelete]
    by_cases h : k' = k
    · subst h
      simp [hw]
    · simp [h]
  · rw [hitems, mapGet_cons_mapDelete]
    simp
  · intro k' h
    rw [hitems, mapGet_cons_mapDelete]
    simp [h]

theorem C12_set_present_key_overwrites_witness :
    ((⟨⟨2, [("a", 1), ("b", 2)]⟩, [("a", 10), ("b", 11)], 0⟩ : LRUCache Nat).cache.Add
      "b" 7).2 = false ∧
    ((⟨⟨2, [("a", 1), ("b", 2)]⟩, [("a", 10), ("b", 11)], 0⟩ : LRUCache Nat).Set
      3 "b" 7 10).cache.items
      = ("b", 7) :: (⟨⟨2, [("a", 1), ("b", 2)]⟩, [("a", 10), ("b", 11)], 0⟩ :
        LRUCache Nat).cache.items.filter (fun e => decide (e.1 ≠ "b")) ∧
    (∀ k', k' ∈ ((⟨⟨2, [("a", 1), ("b", 2)]⟩, [("a", 10), ("b", 11)], 0⟩ :
        LRUCache Nat).Set 3 "b" 7 10).cache.keys
      ↔ k' ∈ (⟨⟨2, [("a", 1), ("b", 2)]⟩, [("a", 10), ("b", 11)], 0⟩ :
        LRUCache Nat).cache.keys) ∧
    mapGet ((⟨⟨2, [("a", 1), ("b", 2)]⟩, [("a", 10), ("b", 11)], 0⟩ : LRUCache Nat).Set
      3 "b" 7 10).cache.items "b" = some 7 ∧
    (∀ k', k' ≠ "b" →
      mapGet ((⟨⟨2, [("a", 1), ("b", 2)]⟩, [("a", 10), ("b", 11)], 0⟩ : LRUCache Nat).Set
        3 "b" 7 10).cache.items k'
      = mapGet (⟨⟨2, [("a", 1), ("b", 2)]⟩, [("a", 10), ("b", 11)], 0⟩ :
        LRUCache Nat).cache.items k') :=
  C12_set_present_key_overwrites ⟨⟨2, [("a", 1), ("b", 2)]⟩, [("a", 10), ("b", 11)], 0⟩
    3 "b" 7 10 (by decide)

/-- C13: in every state, `Get(k)` of a key with no entry in the expiry index returns the
error "key not found" and leaves the state, recency store and expiry index, as it was;
in particular so does every `Get` on a freshly constructed cache. -/
theorem C13_get_without_expiry_entry_is_not_found (c : LRUCache V) (now : Time)
    (k : String) :
    (mapGet c.ttl k = none → c.Get now k = (c, .error "key not found")) ∧
    (∀ (size : Int) (ttl : Duration), NewLRUCache size ttl = some c →
      c.Get now k = (c, .error "key not found")) := by
  refine ⟨Get_of_no_entry c now k, ?_⟩
  intro size ttl hnew
  obtain ⟨_, rfl⟩ := NewLRUCache_eq size ttl c hnew
  exact Get_of_no_entry _ now k rfl

theorem C13_get_without_expiry_entry_is_not_found_witness :
    (⟨⟨2, [("a", 1)]⟩, [("a", 10)], 0⟩ : LRUCache Nat).Get 3 "zz"
      = (⟨⟨2, [("a", 1)]⟩, [("a", 10)], 0⟩, .error "key not found") ∧
    (⟨⟨2, []⟩, [], 0⟩ : LRUCache Nat).Get 3 "zz"
      = (⟨⟨2, []⟩, [], 0⟩, .error "key not found") :=
  ⟨(C13_get_without_expiry_entry_is_not_found ⟨⟨2, [("a", 1)]⟩, [("a", 10)], 0⟩ 3 "zz").1
      (by decide),
    (C13_get_without_expiry_entry_is_not_found ⟨⟨2, []⟩, [], 0⟩ 3 "zz").2 2 0 (by decide)⟩

/-- C14: when `Get(k)` returns the Expired outcome, `k` is afterwards in neither the
recency store nor the expiry index, every other key keeps its value and its expiry, the
recency store is the old one without the entry of `k` (the others in their old order), and
a `Get(k)` that follows directly, at any instant, returns "key not found" and changes
nothing. -/
theorem C14_lazy_purge (c : LRUCache V) (now : Time) (k : String)
    (h : (c.Get now k).2 = .error "cache expired") :
    k ∉ (c.Get now k).1.cache.keys ∧
    k ∉ mapKeys (c.Get now k).1.ttl ∧
    (∀ k', k' ≠ k →
      mapGet (c.Get now k).1.cache.items k' = mapGet c.cache.items k' ∧
      mapGet (c.Get now k).1.ttl k' = mapGet c.ttl k') ∧
    (c.Get now k).1.cache.items = c.cache.items.filter (fun e => decide (e.1 ≠ k)) ∧
    ∀ later, (c.Get now k).1.Get later k = ((c.Get now k).1, .error "key not found") := by
  rw [Get_expired_state c now k h]
  refine ⟨not_mem_mapKeys_mapDelete c.cache.items k, not_mem_mapKeys_mapDelete c.ttl k,
    ?_, rfl, ?_⟩
  · intro k' hk'
    exact ⟨mapGet_mapDelete_of_ne c.cache.items k k' hk',
      mapGet_mapDelete_of_ne c.ttl k k' hk'⟩
  · intro later
    apply Get_of_no_entry
    exact (not_mem_mapKeys_iff _ k).1 (not_mem_mapKeys_mapDelete c.ttl k)

theorem C14_lazy_purge_witness :
    "a" ∉ ((⟨⟨2, [("b", 2), ("a", 1)]⟩, [("b", 50), ("a", 10)], 0⟩ :
      LRUCache Nat).Get 20 "a").1.cache.keys ∧
    "a" ∉ mapKeys ((⟨⟨2, [("b", 2), ("a", 1)]⟩, [("b", 50), ("a", 10)], 0⟩ :
      LRUCache Nat).Get 20 "a").1.ttl ∧
    (∀ k', k' ≠ "a" →
      mapGet ((⟨⟨2, [("b", 2), ("a", 1)]⟩, [("b", 50), ("a", 10)], 0⟩ :
        LRUCache Nat).Get 20 "a").1.cache.items k'
        = mapGet (⟨⟨2, [("b", 2), ("a", 1)]⟩, [("b", 50), ("a", 10)], 0⟩ :
          LRUCache Nat).cache.items k' ∧
      mapGet ((⟨⟨2, [("b", 2), ("a", 1)]⟩, [("b", 50), ("a", 10)], 0⟩ :
        LRUCache Nat).Get 20 "a").1.ttl k'
        = mapGet (⟨⟨2, [("b", 2), ("a", 1)]⟩, [("b", 50), ("a", 10)], 0⟩ :
          LRUCache Nat).ttl k') ∧
    ((⟨⟨2, [("b", 2), ("a", 1)]⟩, [("b", 50), ("a", 10)], 0⟩ :
      LRUCache Nat).Get 20 "a").1.cache.items
      = (⟨⟨2, [("b", 2), ("a", 1)]⟩, [("b", 50), ("a", 10)], 0⟩ :
        LRUCache Nat).cache.items.filter (fun e => decide (e.1 ≠ "a")) ∧
    ∀ later, ((⟨⟨2, [("b", 2), ("a", 1)]⟩, [("b", 50), ("a", 10)], 0⟩ :
      LRUCache Nat).Get 20 "a").1.Get later "a"
      = (((⟨⟨2, [("b", 2), ("a", 1)]⟩, [("b", 50), ("a", 10)], 0⟩ :
        LRUCache Nat).Get 20 "a").1, .error "key not found") :=
  C14_lazy_purge ⟨⟨2, [("b", 2), ("a", 1)]⟩, [("b", 50), ("a", 10)], 0⟩ 20 "a" (by decide)

/-- C15: for a key that the expiry index holds with an expiry later than `now` and the
recency store holds with the value `v`, `Get(k)` returns `v` without error and leaves the
recency store with `k` first, followed by the other entries in their old order; the key
set of the store and the value of every key are as before. -/
theorem C15_get_hit_promotes (c : LRUCache V) (now : Time) (k : String) (e : Time) (v : V)
    (he : mapGet c.ttl k = some e) (hv : mapGet c.cache.items k = some v)
    (hnow : now < e) :
    (c.Get now k).2 = .ok v ∧
    (c.Get now k).1.cache.items
      = (k, v) :: c.cache.items.filter (fun x => decide (x.1 ≠ k)) ∧
    (∀ k', k' ∈ (c.Get now k).1.cache.keys ↔ k' ∈ c.cache.keys) ∧
    (∀ k', mapGet (c.Get now k).1.cache.items k' = mapGet c.cache.items k') := by
  have hok : (c.Get now k).2 = .ok v := (Get_ok_iff c now k v).2 ⟨e, he, le_of_lt hnow, hv⟩
  have hstate := Get_ok_state c now k v hok
  have hitems : (c.Get now k).1.cache.items = (k, v) :: mapDelete c.cache.items k := by
    rw [hstate]
  have hget : ∀ k', mapGet (c.Get now k).1.cache.items k' = mapGet c.cache.items k' := by
    intro k'
    rw [hitems, mapGet_cons_mapDelete]
    by_cases h : k' = k
    · subst h
      simp [hv]
    · simp [h]
  refine ⟨hok, hitems, ?_, hget⟩
  intro k'
  unfold lru.Cache.keys
  rw [mem_mapKeys_iff, mem_mapKeys_iff, hget]

theorem C15_get_hit_promotes_witness :
    ((⟨⟨2, [("b", 2), ("a", 1)]⟩, [("b", 50), ("a", 10)], 0⟩ : LRUCache Nat).Get
      5 "a").2 = .ok 1 ∧
    ((⟨⟨2, [("b", 2), ("a", 1)]⟩, [("b", 50), ("a", 10)], 0⟩ : LRUCache Nat).Get
      5 "a").1.cache.items
      = ("a", 1) :: (⟨⟨2, [("b", 2), ("a", 1)]⟩, [("b", 50), ("a", 10)], 0⟩ :
        LRUCache Nat).cache.items.filter (fun x => decide (x.1 ≠ "a")) ∧
    (∀ k', k' ∈ ((⟨⟨2, [("b", 2), ("a", 1)]⟩, [("b", 50), ("a", 10)], 0⟩ :
        LRUCache Nat).Get 5 "a").1.cache.keys
      ↔ k' ∈ (⟨⟨2, [("b", 2), ("a", 1)]⟩, [("b", 50), ("a", 10)], 0⟩ :
        LRUCache Nat).cache.keys) ∧
    (∀ k', mapGet ((⟨⟨2, [("b", 2), ("a", 1)]⟩, [("b", 50), ("a", 10)], 0⟩ :
        LRUCache Nat).Get 5 "a").1.cache.items k'
      = mapGet (⟨⟨2, [("b", 2), ("a", 1)]⟩, [("b", 50), ("a", 10)], 0⟩ :
        LRUCache Nat).cache.items k') :=
  C15_get_hit_promotes ⟨⟨2, [("b", 2), ("a", 1)]⟩, [("b", 50), ("a", 10)], 0⟩ 5 "a" 10 1
    (by decide) (by decide) (by decide)

/-- C16: in every state, `Delete(k)` leaves `k` in neither the recency store nor the
expiry index, keeps the value and the expiry of every other key, and leaves the recency
store as the old one without the entry of `k`; when `k` was in neither structure the state
is unchanged (so `Delete("missing-key")` on a fresh cache changes nothing); a second
`Delete(k)` changes nothing more; and a `Get(k)` that follows returns "key not found". -/
theorem C16_delete_removes_and_is_idempotent (c : LRUCache V) (k : String) :
    k ∉ (c.Delete k).cache.keys ∧
    k ∉ mapKeys (c.Delete k).ttl ∧
    (∀ k', k' ≠ k →
      mapGet (c.Delete k).cache.items k' = mapGet c.cache.items k' ∧
      mapGet (c.Delete k).ttl k' = mapGet c.ttl k') ∧
    (c.Delete k).cache.items = c.cache.items.filter (fun e => decide (e.1 ≠ k)) ∧
    (k ∉ c.cache.keys → k ∉ mapKeys c.ttl → c.Delete k = c) ∧
    (∀ (size : Int) (ttl : Duration), NewLRUCache size ttl = some c →
      c.Delete "missing-key" = c) ∧
    (c.Delete k).Delete k = c.Delete k ∧
    ∀ now, (c.Delete k).Get now k = (c.Delete k, .error "key not found") := by
  have habsent : ∀ (s : LRUCache V) (x : String), x ∉ s.cache.keys → x ∉ mapKeys s.ttl →
      s.Delete x = s := by
    intro s x h1 h2
    have e1 := mapDelete_eq_self s.cache.items x ((not_mem_mapKeys_iff _ x).1 h1)
    have e2 := mapDelete_eq_self s.ttl x ((not_mem_mapKeys_iff _ x).1 h2)
    unfold LRUCache.Delete lru.Cache.Remove
    rw [e1, e2]
  have h1 : k ∉ (c.Delete k).cache.keys := not_mem_mapKeys_mapDelete c.cache.items k
  have h2 : k ∉ mapKeys (c.Delete k).ttl := not_mem_mapKeys_mapDelete c.ttl k
  refine ⟨h1, h2, ?_, rfl, habsent c k, ?_, habsent (c.Delete k) k h1 h2, ?_⟩
  · intro k' hk'
    exact ⟨mapGet_mapDelete_of_ne c.cache.items k k' hk',
      mapGet_mapDelete_of_ne c.ttl k k' hk'⟩
  · intro size ttl hnew
    obtain ⟨_, rfl⟩ := NewLRUCache_eq size ttl c hnew
    rfl
  · intro now
    exact Get_of_no_entry _ now k ((not_mem_mapKeys_iff _ k).1 h2)

theorem C16_delete_removes_and_is_idempotent_witness :
    (⟨⟨2, [("b", 2)]⟩, [("b", 50), ("a", 10)], 0⟩ : LRUCache Nat).Delete "zz"
      = ⟨⟨2, [("b", 2)]⟩, [("b", 50), ("a", 10)], 0⟩ ∧
    (⟨⟨2, []⟩, [], 0⟩ : LRUCache Nat).Delete "missing-key" = ⟨⟨2, []⟩, [], 0⟩ :=
  ⟨(C16_delete_removes_and_is_idempotent ⟨⟨2, [("b", 2)]⟩, [("b", 50), ("a", 10)], 0⟩
      "zz").2.2.2.2.1 (by decide) (by decide),
    (C16_delete_removes_and_is_idempotent ⟨⟨2, []⟩, [], 0⟩ "k").2.2.2.2.2.1 2 0
      (by decide)⟩

/-- C17: `NewLRUCache(size, ttl)` fails (nil cache, non-nil error) if and only if
`size ≤ 0`; for every `size > 0` it returns a cache of that capacity whose recency store
and expiry index are both empty. -/
theorem C17_new_fails_iff_size_not_positive (size : Int) (ttl : Duration) :
    ((NewLRUCache size ttl : Option (LRUCache V)) = none ↔ size ≤ 0) ∧
    (0 < size → ∃ c0 : LRUCache V, NewLRUCache size ttl = some c0 ∧
      c0.cache.items = [] ∧ c0.ttl = [] ∧ (c0.cache.size : Int) = size) := by
  unfold NewLRUCache lru.New
  by_cases h : size ≤ 0
  · simp only [h, if_true, true_iff, true_and]
    intro hpos
    omega
  · simp only [h, if_false, iff_false, reduceCtorEq, not_false_eq_true, true_and]
    intro hpos
    refine ⟨_, rfl, rfl, rfl, ?_⟩
    show ((size.toNat : Nat) : Int) = size
    omega

theorem C17_new_fails_iff_size_not_positive_witness :
    ∃ c0 : LRUCache Nat, NewLRUCache 100 300000000000 = some c0 ∧
      c0.cache.items = [] ∧ c0.ttl = [] ∧ (c0.cache.size : Int) = 100 :=
  (C17_new_fails_iff_size_not_positive 100 300000000000).2 (by decide)

/-- C18: for every `size > 0` and any two durations `d1` and `d2`, the caches built by
`NewLRUCache(size, d1)` and `NewLRUCache(size, d2)` give, on every sequence of `Set`,
`Get` and `Delete` calls issued at the same instants, the same result for every call and
end with the same recency store and the same expiry index. -/
theorem C18_default_ttl_is_advisory (size : Int) (d1 d2 : Duration) (c1 c2 : LRUCache V)
    (_hsize : 0 < size) (h1 : NewLRUCache size d1 = some c1)
    (h2 : NewLRUCache size d2 = some c2) (calls : List (Call V)) :
    history c1 calls = history c2 calls ∧
    (run c1 calls).cache = (run c2 calls).cache ∧
    (run c1 calls).ttl = (run c2 calls).ttl := by
  obtain ⟨_, rfl⟩ := NewLRUCache_eq size d1 c1 h1
  obtain ⟨_, rfl⟩ := NewLRUCache_eq size d2 c2 h2
  exact run_agree calls _ _ rfl rfl

theorem C18_default_ttl_is_advisory_witness :
    history (⟨⟨1, []⟩, [], 5⟩ : LRUCache Nat)
        [(0, .set "a" 1 10), (1, .get "a"), (2, .set "b" 2 10), (20, .get "a"),
          (21, .delete "b")]
      = history (⟨⟨1, []⟩, [], 7000⟩ : LRUCache Nat)
        [(0, .set "a" 1 10), (1, .get "a"), (2, .set "b" 2 10), (20, .get "a"),
          (21, .delete "b")] ∧
    (run (⟨⟨1, []⟩, [], 5⟩ : LRUCache Nat)
        [(0, .set "a" 1 10), (1, .get "a"), (2, .set "b" 2 10), (20, .get "a"),
          (21, .delete "b")]).cache
      = (run (⟨⟨1, []⟩, [], 7000⟩ : LRUCache Nat)
        [(0, .set "a" 1 10), (1, .get "a"), (2, .set "b" 2 10), (20, .get "a"),
          (21, .delete "b")]).cache ∧
    (run (⟨⟨1, []⟩, [], 5⟩ : LRUCache Nat)
        [(0, .set "a" 1 10), (1, .get "a"), (2, .set "b" 2 10), (20, .get "a"),
          (21, .delete "b")]).ttl
      = (run (⟨⟨1, []⟩, [], 7000⟩ : LRUCache Nat)
        [(0, .set "a" 1 10), (1, .get "a"), (2, .set "b" 2 10), (20, .get "a"),
          (21, .delete "b")]).ttl :=
  C18_default_ttl_is_advisory 1 5 7000 ⟨⟨1, []⟩, [], 5⟩ ⟨⟨1, []⟩, [], 7000⟩ (by decide)
    (by decide) (by decide) _

/-- C19 (the claim fails for a logger that was never initialised): with the global
`logger.Logger` nil, `NewLRUCache`, `Set`, `Get` and `Delete` all panic at their call to
the logger, where the same calls with an initialised logger return. -/
theorem C19_nil_logger_panics :
    (Logged.NewLRUCache none 1 0 : Completion (logger.Logger × Option (LRUCache Nat)))
      = .panicked ∧
    Logged.Set none (⟨⟨1, []⟩, [], 0⟩ : LRUCache Nat) 0 "a" 1 10 = .panicked ∧
    Logged.Get none (⟨⟨1, [("a", 1)]⟩, [("a", 10)], 0⟩ : LRUCache Nat) 5 "a" = .panicked ∧
    Logged.Delete none (⟨⟨1, [("a", 1)]⟩, [("a", 10)], 0⟩ : LRUCache Nat) "a" = .panicked ∧
    (Logged.NewLRUCache (logger.InitializeLogger none) 1 0 :
        Completion (logger.Logger × Option (LRUCache Nat)))
      ≠ .panicked := by
  decide

/-- C19 (amended): with an initialised logger, whatever records it has been given,
`NewLRUCache`, `Set`, `Get` and `Delete` return without panicking, leave the logger
initialised, and return the results and the cache state of the operations without the
logging, which the state of the sink does not enter. -/
theorem C19_initialised_logger_never_fails (records : List logger.Record) (size : Int)
    (ttl : Duration) (c : LRUCache V) (now : Time) (k : String) (v : V) (d : Duration) :
    (∃ records1, (Logged.NewLRUCache (some records) size ttl :
        Completion (logger.Logger × Option (LRUCache V)))
      = .returned (some records1, NewLRUCache size ttl)) ∧
    (∃ records1, Logged.Set (some records) c now k v d
      = .returned (some records1, c.Set now k v d)) ∧
    (∃ records1, Logged.Get (some records) c now k
      = .returned (some records1, c.Get now k)) ∧
    (∃ records1, Logged.Delete (some records) c k
      = .returned (some records1, c.Delete k)) := by
  refine ⟨?_, ⟨_, rfl⟩, ?_, ⟨_, rfl⟩⟩
  · unfold Logged.NewLRUCache NewLRUCache
    cases lru.New size with
    | none => exact ⟨_, rfl⟩
    | some cache => exact ⟨_, rfl⟩
  · unfold Logged.Get LRUCache.Get
    cases mapGet c.ttl k with
    | none => exact ⟨_, rfl⟩
    | some e =>
      dsimp only
      by_cases h : now > e
      · simp only [h, if_true]
        exact ⟨_, rfl⟩
      · simp only [h, if_false]
        rcases c.cache.Get k with ⟨c1, _ | w⟩
        · exact ⟨_, rfl⟩
        · exact ⟨_, rfl⟩

/-- C20 (evaluation of the code where the claim fails): two `Set` calls with the keys
`"a"` and `"b"` on a cache of capacity 1.  Whatever the instants and durations, in each of
the two sequential orderings of the calls the final recency store holds one key and the
final expiry index holds both, so invariant I1 holds in the final state of no sequential
ordering; the capacity bound I2 holds in both. -/
theorem C20_no_ordering_of_two_sets_keeps_I1 (t1 t2 : Time) (da db : Duration) :
    NewLRUCache 1 0 = some (⟨⟨1, []⟩, [], 0⟩ : LRUCache Nat) ∧
    (run (⟨⟨1, []⟩, [], 0⟩ : LRUCache Nat)
      [(t1, .set "a" 1 da), (t2, .set "b" 2 db)]).cache.keys = ["b"] ∧
    mapKeys (run (⟨⟨1, []⟩, [], 0⟩ : LRUCache Nat)
      [(t1, .set "a" 1 da), (t2, .set "b" 2 db)]).ttl = ["b", "a"] ∧
    (run (⟨⟨1, []⟩, [], 0⟩ : LRUCache Nat)
      [(t1, .set "b" 2 db), (t2, .set "a" 1 da)]).cache.keys = ["a"] ∧
    mapKeys (run (⟨⟨1, []⟩, [], 0⟩ : LRUCache Nat)
      [(t1, .set "b" 2 db), (t2, .set "a" 1 da)]).ttl = ["a", "b"] := by
  refine ⟨by decide, ?_, ?_, ?_, ?_⟩ <;> rfl

/-! ## `FieldByName`: the search through embedded structs ends at the nesting depth -/

theorem depthFields_append (a b : List (String × String × Value)) :
    depthFields (a ++ b) = max (depthFields a) (depthFields b) := by
  induction a with
  | nil => simp [depthFields]
  | cons f rest ih =>
    show depthFields (f :: (rest ++ b)) = max (depthFields (f :: rest)) (depthFields b)
    rw [depthFields, ih, depthFields]
    omega

theorem promoted_cons (field : String × String × Value)
    (rest : List (String × String × Value)) :
    reflect.promoted (field :: rest) = reflect.promoted [field] ++ reflect.promoted rest := by
  simp [reflect.promoted]

theorem promoted_single_depth (field : String × String × Value) :
    reflect.promoted [field] = [] ∨
      depthFields (reflect.promoted [field]) + 1 ≤ depthField field := by
  obtain ⟨n, p, v⟩ := field
  cases v with
  | embedded w =>
    cases w with
    | struct inner =>
      right
      simp [reflect.promoted, depthField, Value.depth]
    | ptr q =>
      cases q with
      | none => left; simp [reflect.promoted]
      | some x =>
        cases x with
        | struct inner =>
          right
          simp [reflect.promoted, depthField, Value.depth]
        | _ => left; simp [reflect.promoted]
    | _ => left; simp [reflect.promoted]
  | _ => left; simp [reflect.promoted]

theorem promoted_depth (level : List (String × String × Value)) :
    reflect.promoted level = [] ∨
      depthFields (reflect.promoted level) + 1 ≤ depthFields level := by
  induction level with
  | nil => left; simp [reflect.promoted]
  | cons f rest ih =>
    rw [promoted_cons, depthFields_append]
    simp only [depthFields]
    rcases promoted_single_depth f with h1 | h1 <;> rcases ih with h2 | h2
    · left
      rw [h1, h2]
      rfl
    · right
      rw [h1]
      simp only [depthFields]
      omega
    · right
      rw [h2]
      simp only [depthFields]
      omega
    · right
      omega

/-- One more level than the nesting depth changes nothing in the search: below the
nesting depth there are no fields. -/
theorem descend_fuel (name : String) (fuel : Nat) (level : List (String × String × Value))
    (h : depthFields level ≤ fuel) :
    reflect.descend name (fuel + 1) level = reflect.descend name fuel level := by
  induction fuel generalizing level with
  | zero =>
    have hp : reflect.promoted level = [] := by
      rcases promoted_depth level with h1 | h1
      · exact h1
      · omega
    simp [reflect.descend, hp, reflect.hasNilEmbedded]
  | succ n ih =>
    have hnext : depthFields (reflect.promoted level) ≤ n := by
      rcases promoted_depth level with h1 | h1
      · rw [h1]
        simp [depthFields]
      · omega
    rw [reflect.descend]
    conv => rhs; rw [reflect.descend]
    rw [ih (reflect.promoted level) hnext]

/-- The search of `FieldByName` gives the same with any bound above the nesting depth. -/
theorem descend_enough_fuel (name : String) (level : List (String × String × Value))
    (k : Nat) :
    reflect.descend name (depthFields level + k) level
      = reflect.descend name (depthFields level) level := by
  induction k with
  | zero => rfl
  | succ n ih =>
    rw [← ih]
    exact descend_fuel name (depthFields level + n) level (Nat.le_add_right _ _)


/-! ## `ValidateStruct`: the map of errors, rule by rule -/

theorem entryAfter_cons (fields : List (String × String × Value)) (name : String)
    (rule : ValidationRule) (rest : List ValidationRule) (cur : Option String) :
    entryAfter fields name (rule :: rest) cur
      = entryAfter fields name rest
          (if rule.Field = name then
            match ruleEntry fields rule with
            | some msg => some msg
            | none => cur
          else cur) := by
  rfl

theorem ruleEntry_eq_some_iff (fields : List (String × String × Value))
    (rule : ValidationRule) (msg : String) :
    ruleEntry fields rule = some msg ↔
      (reflect.lookup fields rule.Field = none ∧ msg = "Invalid field") ∨
      (∃ field e, reflect.lookup fields rule.Field = some field ∧
        rule.Validator field.2.unembed = .returned (some e) ∧ msg = rule.ErrorMsg) := by
  unfold ruleEntry
  cases hf : reflect.lookup fields rule.Field with
  | none =>
    simp only [Option.some.injEq, true_and, reduceCtorEq, false_and, exists_false, or_false]
    exact eq_comm
  | some field =>
    constructor
    · intro h
      refine Or.inr ⟨field, ?_⟩
      cases hv : rule.Validator field.2.unembed with
      | panicked => simp [hv] at h
      | returned err =>
        cases err with
        | none => simp [hv] at h
        | some e =>
          simp only [hv, Option.some.injEq] at h
          exact ⟨e, rfl, rfl, h.symm⟩
    · rintro (⟨hnone, _⟩ | ⟨field2, e, hsome, hv, hmsg⟩)
      · cases hnone
      · cases hsome
        simp only [hv]
        rw [hmsg]

theorem entryAfter_of_no_entry (fields : List (String × String × Value)) (name : String)
    (rules : List ValidationRule) (cur : Option String)
    (h : ∀ r ∈ rules, r.Field = name → ruleEntry fields r = none) :
    entryAfter fields name rules cur = cur := by
  induction rules generalizing cur with
  | nil => rfl
  | cons rule rest ih =>
    rw [entryAfter_cons]
    have hrest : ∀ r ∈ rest, r.Field = name → ruleEntry fields r = none :=
      fun r hr => h r (List.mem_cons_of_mem _ hr)
    rw [ih _ hrest]
    by_cases hn : rule.Field = name
    · simp [hn, h rule (List.mem_cons_self _ _) hn]
    · simp [hn]

theorem entryAfter_eq_some (fields : List (String × String × Value)) (name : String)
    (rules : List ValidationRule) (cur : Option String) (msg : String)
    (h : entryAfter fields name rules cur = some msg) :
    cur = some msg ∨ ∃ r ∈ rules, r.Field = name ∧ ruleEntry fields r = some msg := by
  induction rules generalizing cur with
  | nil => exact Or.inl h
  | cons rule rest ih =>
    rw [entryAfter_cons] at h
    rcases ih _ h with hcur | ⟨r, hr, hrn, hre⟩
    · by_cases hn : rule.Field = name
      · simp only [hn, if_true] at hcur
        cases hre : ruleEntry fields rule with
        | none =>
          rw [hre] at hcur
          exact Or.inl hcur
        | some m =>
          rw [hre] at hcur
          refine Or.inr ⟨rule, List.mem_cons_self _ _, hn, ?_⟩
          rw [hre]
          exact hcur
      · simp only [hn, if_false] at hcur
        exact Or.inl hcur
    · exact Or.inr ⟨r, List.mem_cons_of_mem _ hr, hrn, hre⟩

theorem entryAfter_isSome_of_cur (fields : List (String × String × Value)) (name : String)
    (rules : List ValidationRule) (cur : Option String) (h : cur.isSome) :
    (entryAfter fields name rules cur).isSome := by
  induction rules generalizing cur with
  | nil => exact h
  | cons rule rest ih =>
    rw [entryAfter_cons]
    apply ih
    by_cases hn : rule.Field = name
    · simp only [hn, if_true]
      cases ruleEntry fields rule with
      | none => exact h
      | some m => rfl
    · simp only [hn, if_false]
      exact h

theorem entryAfter_isSome_of_rule (fields : List (String × String × Value)) (name : String)
    (rules : List ValidationRule) (cur : Option String) (r : ValidationRule)
    (hr : r ∈ rules) (hn : r.Field = name) (he : (ruleEntry fields r).isSome) :
    (entryAfter fields name rules cur).isSome := by
  induction rules generalizing cur with
  | nil => simp at hr
  | cons rule rest ih =>
    rw [entryAfter_cons]
    rcases List.mem_cons.1 hr with rfl | hrest
    · apply entryAfter_isSome_of_cur
      simp only [hn, if_true]
      cases hre : ruleEntry fields r with
      | none => simp [hre] at he
      | some m => rfl
    · exact ih _ hrest

theorem entryAfter_of_nodup (fields : List (String × String × Value))
    (rules : List ValidationRule) (cur : Option String) (r : ValidationRule)
    (hnd : (rules.map ValidationRule.Field).Nodup) (hr : r ∈ rules) (msg : String)
    (he : ruleEntry fields r = some msg) :
    entryAfter fields r.Field rules cur = some msg := by
  induction rules generalizing cur with
  | nil => simp at hr
  | cons rule rest ih =>
    rw [List.map_cons, List.nodup_cons] at hnd
    rw [entryAfter_cons]
    rcases List.mem_cons.1 hr with rfl | hrest
    · simp only [if_true, he]
      apply entryAfter_of_no_entry
      intro r2 hr2 hf
      exact absurd (hf ▸ List.mem_map_of_mem ValidationRule.Field hr2) hnd.1
    · exact ih _ hnd.2 hrest

/-- The last rule of a list that files an entry under a name decides the entry. -/
theorem entryAfter_of_last (fields : List (String × String × Value))
    (before after : List ValidationRule) (r : ValidationRule) (cur : Option String)
    (msg : String) (he : ruleEntry fields r = some msg)
    (hafter : ∀ r2 ∈ after, r2.Field = r.Field → ruleEntry fields r2 = none) :
    entryAfter fields r.Field (before ++ r :: after) cur = some msg := by
  induction before generalizing cur with
  | nil =>
    rw [List.nil_append, entryAfter_cons]
    simp only [if_true, he]
    exact entryAfter_of_no_entry fields r.Field after (some msg) hafter
  | cons b rest ih =>
    rw [List.cons_append, entryAfter_cons]
    exact ih _

/-- On a struct in which `FieldByName` returns for the names of the rules, with a field
that is exported, and whose validators return, the loop of `ValidateStruct` returns, with
the entries that `entryAfter` describes. -/
theorem validateRules_returns (fields : List (String × String × Value))
    (rules : List ValidationRule) (acc : List (String × String))
    (hok : ∀ r ∈ rules,
      reflect.fieldByNameIn fields r.Field = .returned (reflect.lookup fields r.Field) ∧
      ∀ field, reflect.lookup fields r.Field = some field →
        field.1 = "" ∧ ∃ err, r.Validator field.2.unembed = .returned err) :
    ∃ m, validateRules (some (.struct fields)) rules acc = .returned m ∧
      ∀ name, mapGet m name = entryAfter fields name rules (mapGet acc name) := by
  induction rules generalizing acc with
  | nil => exact ⟨acc, rfl, fun _ => rfl⟩
  | cons rule rest ih =>
    have hrest : ∀ r ∈ rest,
        reflect.fieldByNameIn fields r.Field = .returned (reflect.lookup fields r.Field) ∧
        ∀ field, reflect.lookup fields r.Field = some field →
          field.1 = "" ∧ ∃ err, r.Validator field.2.unembed = .returned err :=
      fun r hr => hok r (List.mem_cons_of_mem _ hr)
    obtain ⟨hfb, hrule⟩ := hok rule (List.mem_cons_self _ _)
    cases hf : reflect.lookup fields rule.Field with
    | none =>
      rw [hf] at hfb
      obtain ⟨m, hm, hget⟩ := ih (mapSet acc rule.Field "Invalid field") hrest
      refine ⟨m, ?_, ?_⟩
      · simp only [validateRules, reflect.FieldByName, hfb]
        exact hm
      · intro name
        rw [hget name, entryAfter_cons, mapGet_mapSet]
        have hre : ruleEntry fields rule = some "Invalid field" := by
          simp [ruleEntry, hf]
        by_cases hn : rule.Field = name
        · simp [hn, hre]
        · have hn2 : ¬ name = rule.Field := fun x => hn x.symm
          simp [hn, hn2]
    | some field =>
      rw [hf] at hfb
      obtain ⟨hexp, err, herr⟩ := hrule field hf
      cases err with
      | none =>
        obtain ⟨m, hm, hget⟩ := ih acc hrest
        refine ⟨m, ?_, ?_⟩
        · simp only [validateRules, reflect.FieldByName, hfb, reflect.Interface, hexp, if_true,
            herr]
          exact hm
        · intro name
          rw [hget name, entryAfter_cons]
          have hre : ruleEntry fields rule = none := by
            simp [ruleEntry, hf, herr]
          by_cases hn : rule.Field = name
          · simp [hn, hre]
          · simp [hn]
      | some e =>
        obtain ⟨m, hm, hget⟩ := ih (mapSet acc rule.Field rule.ErrorMsg) hrest
        refine ⟨m, ?_, ?_⟩
        · simp only [validateRules, reflect.FieldByName, hfb, reflect.Interface, hexp, if_true,
            herr]
          exact hm
        · intro name
          rw [hget name, entryAfter_cons, mapGet_mapSet]
          have hre : ruleEntry fields rule = some rule.ErrorMsg := by
            simp [ruleEntry, hf, herr]
          by_cases hn : rule.Field = name
          · simp [hn, hre]
          · have hn2 : ¬ name = rule.Field := fun x => hn x.symm
            simp [hn, hn2]

theorem validateRules_all_pass (fields : List (String × String × Value))
    (rules : List ValidationRule) (acc : List (String × String))
    (hpass : ∀ r ∈ rules, ∃ field,
      reflect.fieldByNameIn fields r.Field = .returned (some field) ∧ field.1 = "" ∧
      r.Validator field.2.unembed = .returned none) :
    validateRules (some (.struct fields)) rules acc = .returned acc := by
  induction rules with
  | nil => rfl
  | cons rule rest ih =>
    obtain ⟨field, hf, hexp, hv⟩ := hpass rule (List.mem_cons_self _ _)
    simp only [validateRules, reflect.FieldByName, hf, reflect.Interface, hexp, if_true, hv]
    exact ih fun r hr => hpass r (List.mem_cons_of_mem _ hr)

/-- C21 (the claim fails when two rules of one field fail): on a struct with the field
`Name` holding `""`, the rule `Name`/`NotEmpty` with the message "first" fails and the
rule `Name`/`MinLength(3)` with the message "second" fails too; the map returned holds
"second" under `Name`, so the failed validation of the first rule does not map to that
rule's `ErrorMsg`. -/
theorem C21_two_failing_rules_counterexample :
    NotEmpty (.string "") = .returned (some "Field cannot be empty") ∧
    MinLength 3 (.string "") ≠ .returned none ∧
    ValidateStruct (.struct [("Name", "", .string "")])
      [{ Field := "Name", Validator := NotEmpty, ErrorMsg := "first" },
        { Field := "Name", Validator := MinLength 3, ErrorMsg := "second" }]
      = .returned [("Name", "second")] ∧
    mapGet [("Name", "second")] "Name" ≠ some "first" := by
  decide

/-- C21 (amended): on a struct (or a pointer to it) in which `FieldByName` returns for the
names of the rules, with a field, its own or promoted, that is exported, and with
validators that return, `ValidateStruct(data, rules)` returns a map whose keys are exactly
the `Field` names of the rules that name a missing field or whose validator returns an
error on the value of the field; the key of a missing field maps to "Invalid field"; every
other entry is the `ErrorMsg` of a rule for that field whose validation failed, namely of
the last such rule: a failed validation maps to its rule's `ErrorMsg` when no later rule of
the same `Field` fails; and when every rule's field exists and every validator passes the
map is empty. -/
theorem C21_validate_struct_last_failing_rule_wins
    (fields : List (String × String × Value)) (rules : List ValidationRule)
    (hok : ∀ r ∈ rules,
      reflect.fieldByNameIn fields r.Field = .returned (reflect.lookup fields r.Field) ∧
      ∀ field, reflect.lookup fields r.Field = some field →
        field.1 = "" ∧ ∃ err, r.Validator field.2.unembed = .returned err) :
    ∃ m, ValidateStruct (.struct fields) rules = .returned m ∧
      ValidateStruct (.ptr (some (.struct fields))) rules = .returned m ∧
      (∀ name, name ∈ mapKeys m ↔ ∃ r ∈ rules, r.Field = name ∧
        (reflect.lookup fields name = none ∨
          ∃ field e, reflect.lookup fields name = some field ∧
            r.Validator field.2.unembed = .returned (some e))) ∧
      (∀ name, name ∈ mapKeys m → reflect.lookup fields name = none →
        mapGet m name = some "Invalid field") ∧
      (∀ name msg, mapGet m name = some msg → reflect.lookup fields name ≠ none →
        ∃ r ∈ rules, r.Field = name ∧ msg = r.ErrorMsg ∧
          ∃ field e, reflect.lookup fields name = some field ∧
            r.Validator field.2.unembed = .returned (some e)) ∧
      (∀ (before after : List ValidationRule) (r : ValidationRule) field e,
        rules = before ++ r :: after →
        reflect.lookup fields r.Field = some field →
        r.Validator field.2.unembed = .returned (some e) →
        (∀ r2 ∈ after, r2.Field = r.Field →
          r2.Validator field.2.unembed = .returned none) →
        mapGet m r.Field = some r.ErrorMsg) ∧
      ((∀ r ∈ rules, ∃ field, reflect.lookup fields r.Field = some field ∧
        r.Validator field.2.unembed = .returned none) → m = []) := by
  obtain ⟨m, hm, hget⟩ := validateRules_returns fields rules [] hok
  have hget : ∀ name, mapGet m name = entryAfter fields name rules none := hget
  refine ⟨m, hm, hm, ?_, ?_, ?_, ?_, ?_⟩
  · intro name
    rw [mem_mapKeys_iff, hget name]
    constructor
    · rintro ⟨msg, hmsg⟩
      rcases entryAfter_eq_some fields name rules none msg hmsg with h | ⟨r, hr, hrn, hre⟩
      · cases h
      · refine ⟨r, hr, hrn, ?_⟩
        rcases (ruleEntry_eq_some_iff fields r msg).1 hre with ⟨h1, _⟩ | ⟨field, e, h1, h2, _⟩
        · exact Or.inl (hrn ▸ h1)
        · exact Or.inr ⟨field, e, hrn ▸ h1, h2⟩
    · rintro ⟨r, hr, hrn, hfail⟩
      have hsome : (ruleEntry fields r).isSome := by
        rcases hfail with h1 | ⟨field, e, h1, h2⟩
        · have := (ruleEntry_eq_some_iff fields r "Invalid field").2
            (Or.inl ⟨hrn ▸ h1, rfl⟩)
          rw [this]
          rfl
        · have := (ruleEntry_eq_some_iff fields r r.ErrorMsg).2
            (Or.inr ⟨field, e, hrn ▸ h1, h2, rfl⟩)
          rw [this]
          rfl
      have := entryAfter_isSome_of_rule fields name rules none r hr hrn hsome
      exact Option.isSome_iff_exists.1 this
  · intro name hname hmissing
    obtain ⟨msg, hmsg⟩ := (mem_mapKeys_iff m name).1 hname
    rw [hmsg]
    rw [hget name] at hmsg
    rcases entryAfter_eq_some fields name rules none msg hmsg with h | ⟨r, _, hrn, hre⟩
    · cases h
    · rcases (ruleEntry_eq_some_iff fields r msg).1 hre with ⟨_, h2⟩ | ⟨field, e, h1, _, _⟩
      · rw [h2]
      · rw [hrn, hmissing] at h1
        cases h1
  · intro name msg hmsg hpresent
    rw [hget name] at hmsg
    rcases entryAfter_eq_some fields name rules none msg hmsg with h | ⟨r, hr, hrn, hre⟩
    · cases h
    · rcases (ruleEntry_eq_some_iff fields r msg).1 hre with ⟨h1, _⟩ | ⟨field, e, h1, h2, h3⟩
      · exact absurd (hrn ▸ h1) hpresent
      · exact ⟨r, hr, hrn, h3, field, e, hrn ▸ h1, h2⟩
  · intro before after r field e hsplit hf hv hafter
    rw [hget r.Field, hsplit]
    apply entryAfter_of_last fields before after r none r.ErrorMsg
      ((ruleEntry_eq_some_iff fields r r.ErrorMsg).2 (Or.inr ⟨field, e, hf, hv, rfl⟩))
    intro r2 hr2 hfield
    unfold ruleEntry
    rw [hfield, hf]
    simp only [hafter r2 hr2 hfield]
  · intro hpass
    have hall := validateRules_all_pass fields rules [] (by
      intro r hr
      obtain ⟨field, hf, hv⟩ := hpass r hr
      obtain ⟨hfb, hrule⟩ := hok r hr
      rw [hf] at hfb
      exact ⟨field, hfb, (hrule field hf).1, hv⟩)
    rw [hm] at hall
    exact Completion.returned.inj hall

/-- A struct with an embedded `Address` and an empty `Name`: the promoted field `City` is
found, and of the two failing rules of `Name` the second one's message stays. -/
theorem C21_validate_struct_last_failing_rule_wins_witness :
    ∃ m, ValidateStruct (.struct
        [("Address", "", .embedded (.struct [("City", "", .string ""), ("Pin", "", .int 999)])),
        ("Name", "", .string "")])
        [{ Field := "City", Validator := NotEmpty, ErrorMsg := "City required" },
        { Field := "Name", Validator := NotEmpty, ErrorMsg := "first" },
        { Field := "Name", Validator := MinLength 3, ErrorMsg := "second" },
        { Field := "Pin", Validator := MinValue 100, ErrorMsg := "Pin too small" },
        { Field := "Nick", Validator := NotEmpty, ErrorMsg := "Nick required" }]
        = .returned m ∧
      mapGet m "City" = some "City required" ∧
      mapGet m "Name" = some "second" ∧
      mapGet m "Nick" = some "Invalid field" ∧
      "Pin" ∉ mapKeys m := by
  obtain ⟨m, hm, _⟩ :=
    C21_validate_struct_last_failing_rule_wins
      [("Address", "", .embedded (.struct [("City", "", .string ""), ("Pin", "", .int 999)])),
      ("Name", "", .string "")]
      [{ Field := "City", Validator := NotEmpty, ErrorMsg := "City required" },
      { Field := "Name", Validator := NotEmpty, ErrorMsg := "first" },
      { Field := "Name", Validator := MinLength 3, ErrorMsg := "second" },
      { Field := "Pin", Validator := MinValue 100, ErrorMsg := "Pin too small" },
      { Field := "Nick", Validator := NotEmpty, ErrorMsg := "Nick required" }]
      (by
        intro r hr
        simp only [List.mem_cons, List.mem_singleton, List.not_mem_nil, or_false] at hr
        rcases hr with rfl | rfl | rfl | rfl | rfl
        · refine ⟨rfl, fun field hf => ?_⟩
          have hf : some (("", Value.string "") : String × Value) = some field := hf
          cases hf
          exact ⟨rfl, _, rfl⟩
        · refine ⟨rfl, fun field hf => ?_⟩
          have hf : some (("", Value.string "") : String × Value) = some field := hf
          cases hf
          exact ⟨rfl, _, rfl⟩
        · refine ⟨rfl, fun field hf => ?_⟩
          have hf : some (("", Value.string "") : String × Value) = some field := hf
          cases hf
          exact ⟨rfl, _, rfl⟩
        · refine ⟨rfl, fun field hf => ?_⟩
          have hf : some (("", Value.int 999) : String × Value) = some field := hf
          cases hf
          exact ⟨rfl, _, rfl⟩
        · refine ⟨rfl, fun field hf => ?_⟩
          have hf : (none : Option (String × Value)) = some field := hf
          cases hf)
  have hm2 := hm
  rw [show ValidateStruct (.struct
        [("Address", "", .embedded (.struct [("City", "", .string ""), ("Pin", "", .int 999)])),
        ("Name", "", .string "")])
        [{ Field := "City", Validator := NotEmpty, ErrorMsg := "City required" },
        { Field := "Name", Validator := NotEmpty, ErrorMsg := "first" },
        { Field := "Name", Validator := MinLength 3, ErrorMsg := "second" },
        { Field := "Pin", Validator := MinValue 100, ErrorMsg := "Pin too small" },
        { Field := "Nick", Validator := NotEmpty, ErrorMsg := "Nick required" }]
        = .returned [("Nick", "Invalid field"), ("Name", "second"),
          ("City", "City required")] from by decide]
    at hm2
  cases hm2
  exact ⟨_, hm, by decide, by decide, by decide, by decide⟩

/-- C22 (evaluation of the code where the claim fails): `ValidateNestedStruct` calls
`ValidateStruct` with nil rules, so it returns a nil error for every value, also for the
`Address` of the example with its empty `City` and its `Pin` 999; the map that
`ValidateStruct` returns for the example user and rules has no entry for `Address`. -/
theorem C22_nested_validation_never_fails :
    (∀ field, ValidateNestedStruct field = .returned none) ∧
    ValidateNestedStruct (.struct [("City", "", .string ""), ("Pin", "", .int 999)])
      = .returned none ∧
    ∃ m, ValidateStruct exampleUser exampleRules = .returned m ∧
      mapGet m "Address" = none ∧ m.length = 7 := by
  exact ⟨fun _ => rfl, rfl,
    [("CreditCard", "Invalid Credit Card number"), ("Passport", "Invalid Passport format"),
        ("Aadhaar", "Invalid Aadhaar number"), ("PAN", "Invalid PAN format"),
        ("Age", "Age must be at least 18"), ("Email", "Invalid email address"),
        ("Name", "Name is required")],
    by decide, by decide, by decide⟩

/-- C23 (evaluation of the code where the claim fails): the pattern of `IsPhoneNumber`
matches `"12345"`, so `IsPhoneNumber("12345")` returns a nil error, and the map that
`ValidateStruct` returns for the example user and rules has no entry for `Phone`. -/
theorem C23_phone_12345_is_accepted :
    IsPhoneNumber (.string "12345") = .returned none ∧
    ∃ m, ValidateStruct exampleUser exampleRules = .returned m ∧ mapGet m "Phone" = none := by
  exact ⟨by decide,
    [("CreditCard", "Invalid Credit Card number"), ("Passport", "Invalid Passport format"),
        ("Aadhaar", "Invalid Aadhaar number"), ("PAN", "Invalid PAN format"),
        ("Age", "Age must be at least 18"), ("Email", "Invalid email address"),
        ("Name", "Name is required")],
    by decide, by decide⟩

/-! ## Expired entries, ghost entries and freed slots -/

theorem Get_of_expired (c : LRUCache V) (now : Time) (k : String) (e : Time)
    (he : mapGet c.ttl k = some e) (hlt : e < now) :
    c.Get now k = (c.Delete k, .error "cache expired") := by
  rcases Get_cases c now k with ⟨hn, _⟩ | ⟨e2, _, _, hg⟩ | ⟨e2, he2, hge, _⟩
  · rw [he] at hn
    cases hn
  · exact hg
  · rw [he] at he2
    cases he2
    exact absurd hlt hge

theorem Get_of_ghost (c : LRUCache V) (now : Time) (k : String) (e : Time)
    (he : mapGet c.ttl k = some e) (hle : now ≤ e) (hk : mapGet c.cache.items k = none) :
    c.Get now k = (c, .error "key not found") := by
  rcases Get_cases c now k with ⟨hn, _⟩ | ⟨e2, he2, hlt, _⟩ | ⟨e2, _, _, hg⟩
  · rw [he] at hn
    cases hn
  · rw [he] at he2
    cases he2
    exact absurd hlt (not_lt.2 hle)
  · rw [hg, hk]
    unfold lru.Cache.Get
    rw [hk]

theorem lru_Add_room (c : lru.Cache V) (k : String) (v : V) (hk : mapGet c.items k = none)
    (hroom : c.items.length < c.size) :
    c.Add k v = ({ c with items := (k, v) :: c.items }, false) := by
  unfold lru.Cache.Add
  rw [hk]
  dsimp only
  rw [if_neg]
  simp only [List.length_cons, gt_iff_lt, not_lt]
  omega

theorem mem_dropLast_or_getLast {α : Type} (l : List α) (x : α) (h : x ∈ l) :
    x ∈ l.dropLast ∨ l.getLast? = some x := by
  cases hl : l.getLast? with
  | none =>
    rw [List.getLast?_eq_none_iff.1 hl] at h
    simp at h
  | some y =>
    have hsplit := List.dropLast_append_getLast? y hl
    rw [← hsplit] at h
    rcases List.mem_append.1 h with h1 | h1
    · exact Or.inl h1
    · have : x = y := by simpa using h1
      rw [this]
      exact Or.inr rfl

theorem gets_keep_ttl (k : String) (gets : List Time) (s : LRUCache V)
    (hok : ∀ ev ∈ history s (gets.map fun ti => ((ti, Op.get k) : Call V)),
      ∃ w, ev.2 = some (.ok w)) :
    (run s (gets.map fun ti => ((ti, Op.get k) : Call V))).ttl = s.ttl := by
  induction gets generalizing s with
  | nil => rfl
  | cons ti rest ih =>
    have hhead : ∃ w, outcome s ((ti, Op.get k) : Call V) = some (.ok w) :=
      hok ((ti, Op.get k), outcome s (ti, Op.get k)) (List.mem_cons_self _ _)
    obtain ⟨w, hw⟩ := hhead
    have hw2 : (s.Get ti k).2 = .ok w := by
      have : some (s.Get ti k).2 = some (.ok w) := hw
      exact Option.some.inj this
    have hstep : (step s ((ti, Op.get k) : Call V)).ttl = s.ttl := by
      show (s.Get ti k).1.ttl = s.ttl
      rw [Get_ok_state s ti k w hw2]
    have hrest := ih (step s (ti, Op.get k)) (fun ev hev =>
      hok ev (List.mem_cons_of_mem _ hev))
    show (run (step s (ti, Op.get k)) (rest.map fun ti => ((ti, Op.get k) : Call V))).ttl = _
    rw [hrest, hstep]

/-- C24: in a cache of positive capacity whose recency store is full, `Set` of a key that
is not in the store leaves the store with the new entry followed by the old entries
without the last one, whatever the expiry index holds and whatever the instant; a call on
another key keeps a key `k` in the recency store unless it is a `Set` that makes the store
evict and `k` is the key of the last entry; and in the scenario where `"live"` is set with a
long ttl, then `"old"` with a short one, a `Set("new")` after the expiry of `"old"` evicts
`"live"` and keeps `"old"` in the store. -/
theorem C24_eviction_ignores_expiry (c : LRUCache V) (hpos : 0 < c.cache.size) :
    (c.cache.Len = c.cache.size →
      ∀ (ttl2 : List (String × Time)) (t : Time) (k : String) (v : V) (d : Duration),
        k ∉ c.cache.keys →
        (({ c with ttl := ttl2 } : LRUCache V).Set t k v d).cache.items
          = (k, v) :: c.cache.items.dropLast) ∧
    (∀ (k : String) (call : Call V), k ∈ c.cache.keys → call.2.key ≠ k →
      k ∈ (step c call).cache.keys ∨
      ∃ t k2 v d, call = (t, Op.set k2 v d) ∧ (c.cache.Add k2 v).2 = true ∧
        ∃ lruEntry, c.cache.items.getLast? = some lruEntry ∧ lruEntry.1 = k) ∧
    ((run (⟨⟨2, []⟩, [], 0⟩ : LRUCache Nat)
        [(0, .set "live" 1 1000), (1, .set "old" 2 1), (100, .set "new" 3 10)]).cache.keys
        = ["new", "old"] ∧
      ((run (⟨⟨2, []⟩, [], 0⟩ : LRUCache Nat)
        [(0, .set "live" 1 1000), (1, .set "old" 2 1)]).Get 100 "old").2
        = .error "cache expired" ∧
      ((run (⟨⟨2, []⟩, [], 0⟩ : LRUCache Nat)
        [(0, .set "live" 1 1000), (1, .set "old" 2 1), (100, .set "new" 3 10)]).Get
          100 "live").2 = .error "key not found") := by
  refine ⟨?_, ?_, by decide⟩
  · intro hfull ttl2 t k v d hk
    have hfresh : mapGet c.cache.items k = none := (not_mem_mapKeys_iff c.cache.items k).1 hk
    have hlen : 0 < c.cache.items.length := by
      have : c.cache.items.length = c.cache.size := hfull
      omega
    obtain ⟨o, os, hos⟩ := List.exists_cons_of_ne_nil (List.ne_nil_of_length_pos hlen)
    show (c.cache.Add k v).1.items = _
    rw [lru_Add_full c.cache k v hfresh hfull, hos]
    rfl
  · intro k call hk hne
    obtain ⟨t, op⟩ := call
    cases op with
    | set k2 v d =>
      have hne : k2 ≠ k := hne
      have hne2 : k ≠ k2 := fun h => hne h.symm
      show k ∈ mapKeys (c.cache.Add k2 v).1.items ∨ _
      cases hg : mapGet c.cache.items k2 with
      | some w =>
        left
        rw [lru_Add_present c.cache k2 v w hg]
        show k ∈ mapKeys ((k2, v) :: mapDelete c.cache.items k2)
        rw [mem_mapKeys_iff, mapGet_cons_mapDelete]
        simp only [hne2, if_false]
        exact (mem_mapKeys_iff c.cache.items k).1 hk
      | none =>
        by_cases hroom : c.cache.items.length < c.cache.size
        · left
          rw [lru_Add_room c.cache k2 v hg hroom]
          show k ∈ mapKeys ((k2, v) :: c.cache.items)
          simp only [mapKeys, List.map_cons, List.mem_cons]
          exact Or.inr hk
        · have hev : (c.cache.Add k2 v).2 = true := by
            unfold lru.Cache.Add
            rw [hg]
            dsimp only
            rw [if_pos]
            simp only [List.length_cons]
            omega
          have hitems : (c.cache.Add k2 v).1.items = ((k2, v) :: c.cache.items).dropLast := by
            unfold lru.Cache.Add
            rw [hg]
            dsimp only
            rw [if_pos]
            simp only [List.length_cons]
            omega
          obtain ⟨entry, hentry, hkey⟩ := List.mem_map.1 hk
          have hne3 : c.cache.items ≠ [] := List.ne_nil_of_mem hentry
          obtain ⟨o, os, hos⟩ := List.exists_cons_of_ne_nil hne3
          have hitems2 : (c.cache.Add k2 v).1.items = (k2, v) :: c.cache.items.dropLast := by
            rw [hitems, hos]
            rfl
          rcases mem_dropLast_or_getLast c.cache.items entry hentry with hin | hlast
          · left
            rw [hitems2]
            simp only [mapKeys, List.map_cons, List.mem_cons]
            exact Or.inr (hkey ▸ List.mem_map_of_mem Prod.fst hin)
          · right
            exact ⟨t, k2, v, d, rfl, hev, entry, hlast, hkey⟩
    | get k2 =>
      have hne : k2 ≠ k := hne
      have hne2 : k ≠ k2 := fun h => hne h.symm
      left
      show k ∈ (c.Get t k2).1.cache.keys
      rcases Get_cases c t k2 with ⟨_, hg⟩ | ⟨e, _, _, hg⟩ | ⟨e, _, _, hg⟩
      · rw [hg]
        exact hk
      · rw [hg]
        exact (mem_mapKeys_mapDelete c.cache.items k2 k).2 ⟨hne2, hk⟩
      · rw [hg]
        exact (lru_Get_keys c.cache k2 k).2 hk
    | delete k2 =>
      have hne : k2 ≠ k := hne
      have hne2 : k ≠ k2 := fun h => hne h.symm
      left
      exact (mem_mapKeys_mapDelete c.cache.items k2 k).2 ⟨hne2, hk⟩

theorem C24_eviction_ignores_expiry_witness :
    ((⟨⟨2, [("old", 2), ("live", 1)]⟩, [("old", 2), ("live", 1000)], 0⟩ :
      LRUCache Nat).Set 100 "new" 3 10).cache.items
      = ("new", 3) :: (⟨⟨2, [("old", 2), ("live", 1)]⟩, [("old", 2), ("live", 1000)], 0⟩ :
        LRUCache Nat).cache.items.dropLast :=
  (C24_eviction_ignores_expiry
    (⟨⟨2, [("old", 2), ("live", 1)]⟩, [("old", 2), ("live", 1000)], 0⟩ : LRUCache Nat)
    (by decide)).1 (by decide) [("old", 2), ("live", 1000)] 100 "new" 3 10 (by decide)

/-- C25: a `Get(k)` that returns a value leaves the expiry index as it was; hence after
`Set(k, v, ttl)` at instant `t` and any number of `Get(k)` calls that all returned a
value, a `Get(k)` at an instant after `t + ttl` returns the Expired outcome. -/
theorem C25_ttl_is_not_sliding (c : LRUCache V) (k : String) :
    (∀ (now : Time) (v : V), (c.Get now k).2 = .ok v → (c.Get now k).1.ttl = c.ttl) ∧
    (∀ (t : Time) (v : V) (d : Duration) (gets : List Time) (later : Time),
      (∀ ev ∈ history (c.Set t k v d) (gets.map fun ti => ((ti, Op.get k) : Call V)),
        ∃ w, ev.2 = some (.ok w)) →
      t + d < later →
      ((run (c.Set t k v d) (gets.map fun ti => ((ti, Op.get k) : Call V))).Get
        later k).2 = .error "cache expired") := by
  refine ⟨?_, ?_⟩
  · intro now v hv
    rw [Get_ok_state c now k v hv]
  · intro t v d gets later hok hlater
    have httl := gets_keep_ttl k gets (c.Set t k v d) hok
    have hentry : mapGet (run (c.Set t k v d)
        (gets.map fun ti => ((ti, Op.get k) : Call V))).ttl k = some (t + d) := by
      rw [httl]
      show mapGet (mapSet c.ttl k (t + d)) k = some (t + d)
      rw [mapGet_mapSet]
      simp
    rw [Get_of_expired _ later k (t + d) hentry hlater]

theorem C25_ttl_is_not_sliding_witness :
    ((run ((⟨⟨2, []⟩, [], 0⟩ : LRUCache Nat).Set 0 "k" 7 10)
      ([1, 5, 9].map fun ti => ((ti, Op.get "k") : Call Nat))).Get 11 "k").2
      = .error "cache expired" :=
  (C25_ttl_is_not_sliding (⟨⟨2, []⟩, [], 0⟩ : LRUCache Nat) "k").2 0 7 10 [1, 5, 9] 11
    (by
      intro ev hev
      rw [show history ((⟨⟨2, []⟩, [], 0⟩ : LRUCache Nat).Set 0 "k" 7 10)
          ([1, 5, 9].map fun ti => ((ti, Op.get "k") : Call Nat))
        = [((1, Op.get "k"), some (.ok 7)), ((5, Op.get "k"), some (.ok 7)),
            ((9, Op.get "k"), some (.ok 7))] from by decide] at hev
      simp only [List.mem_cons, List.mem_singleton, List.not_mem_nil, or_false] at hev
      rcases hev with rfl | rfl | rfl <;> exact ⟨7, rfl⟩)
    (by decide)

/-- C26 (evaluation of the code where the claim fails): the string of the one letter
U+00E9 has one character and two bytes, and `MinLength(2)` returns a nil error for it, a
string with fewer than 2 characters; in general `MinLength(n)` returns an error for a string
exactly when the string has fewer than `n` bytes. -/
theorem C26_min_length_counts_bytes :
    "\u00e9".length = 1 ∧ "\u00e9".utf8ByteSize = 2 ∧
    MinLength 2 (.string "\u00e9") = .returned none ∧
    ∀ (n : Int) (s : String),
      (∃ e, MinLength n (.string s) = .returned (some e)) ↔ (s.utf8ByteSize : Int) < n := by
  refine ⟨by decide, by decide, by decide, ?_⟩
  intro n s
  unfold MinLength
  by_cases h : (s.utf8ByteSize : Int) < n
  · simp [h]
  · simp [h]

/-- C27 (evaluation of the code where the claim fails): two `AddJob` calls with the same
name and schedules that parse both succeed and schedule the entries 1 and 2, while the
map `jobs` keeps only the job with id 2; after `RemoveJob(name)` the name is absent from
`jobs`, but the entry 1 scheduled under that name is still in the scheduler. -/
theorem C27_second_add_job_orphans_first_entry {T : Type} (parser : String → GoError)
    (name s1 s2 : String) (task1 task2 : T) (args1 args2 : List Value)
    (h1 : parser s1 = none) (h2 : parser s2 = none) :
    ((CronManager.New parser).AddJob name s1 task1 args1).2 = none ∧
    ((((CronManager.New parser).AddJob name s1 task1 args1).1.AddJob
      name s2 task2 args2).2 = none) ∧
    (((CronManager.New parser).AddJob name s1 task1 args1).1.AddJob
      name s2 task2 args2).1.entryIDs = [1, 2] ∧
    (((CronManager.New parser).AddJob name s1 task1 args1).1.AddJob
      name s2 task2 args2).1.jobIDs = [2] ∧
    mapGet ((((CronManager.New parser).AddJob name s1 task1 args1).1.AddJob
      name s2 task2 args2).1.RemoveJob name).jobs name = none ∧
    ((((CronManager.New parser).AddJob name s1 task1 args1).1.AddJob
      name s2 task2 args2).1.RemoveJob name).cron.entries = [(1, s1)] := by
  simp [CronManager.New, CronManager.AddJob, CronManager.RemoveJob, CronManager.entryIDs,
    CronManager.jobIDs, cron.New, cron.Cron.AddFunc, cron.Cron.Remove, h1, h2, mapSet,
    mapDelete, mapGet]

theorem C27_second_add_job_orphans_first_entry_witness :
    (((CronManager.New (fun _ => none) : CronManager Nat).AddJob "report" "0 * * * * *" 1
      []).1.AddJob "report" "30 * * * * *" 2 []).1.entryIDs = [1, 2] ∧
    ((((CronManager.New (fun _ => none) : CronManager Nat).AddJob "report" "0 * * * * *" 1
      []).1.AddJob "report" "30 * * * * *" 2 []).1.RemoveJob "report").cron.entries
      = [(1, "0 * * * * *")] :=
  ⟨(C27_second_add_job_orphans_first_entry (fun _ => none) "report" "0 * * * * *"
      "30 * * * * *" 1 2 [] [] rfl rfl).2.2.1,
    (C27_second_add_job_orphans_first_entry (fun _ => none) "report" "0 * * * * *"
      "30 * * * * *" 1 2 [] [] rfl rfl).2.2.2.2.2⟩

/-- C28: in a state where the expiry index holds `k` with the expiry `e` and the recency
store does not hold `k`, a `Get(k)` at an instant not after `e` returns "key not found"
and leaves the state as it was; and a call leaves the entry of `k` in the expiry index as
it is unless it is a `Delete(k)`, a `Get(k)` at an instant after `e`, or a `Set(k)`. -/
theorem C28_ghost_key_lookup (c : LRUCache V) (k : String) (e : Time)
    (he : mapGet c.ttl k = some e) :
    (∀ now, now ≤ e → k ∉ c.cache.keys → c.Get now k = (c, .error "key not found")) ∧
    (∀ call : Call V, mapGet (step c call).ttl k = some e ∨
      (∃ t, call = (t, Op.delete k)) ∨
      (∃ t, call = (t, Op.get k) ∧ e < t) ∨
      (∃ t v d, call = (t, Op.set k v d))) := by
  refine ⟨?_, ?_⟩
  · intro now hle hk
    exact Get_of_ghost c now k e he hle ((not_mem_mapKeys_iff c.cache.items k).1 hk)
  · intro call
    obtain ⟨t, op⟩ := call
    cases op with
    | set k2 v d =>
      by_cases hk : k2 = k
      · subst hk
        exact Or.inr (Or.inr (Or.inr ⟨t, v, d, rfl⟩))
      · left
        have hk2 : ¬ k = k2 := fun h => hk h.symm
        show mapGet (mapSet c.ttl k2 (t + d)) k = some e
        rw [mapGet_mapSet]
        simp only [hk2, if_false]
        exact he
    | delete k2 =>
      by_cases hk : k2 = k
      · subst hk
        exact Or.inr (Or.inl ⟨t, rfl⟩)
      · left
        have hk2 : k ≠ k2 := fun h => hk h.symm
        show mapGet (mapDelete c.ttl k2) k = some e
        rw [mapGet_mapDelete_of_ne c.ttl k2 k hk2]
        exact he
    | get k2 =>
      show mapGet (c.Get t k2).1.ttl k = some e ∨ _
      rcases Get_cases c t k2 with ⟨_, hg⟩ | ⟨e2, he2, hlt, hg⟩ | ⟨e2, _, _, hg⟩
      · left
        rw [hg]
        exact he
      · by_cases hk : k2 = k
        · subst hk
          rw [he] at he2
          cases he2
          exact Or.inr (Or.inr (Or.inl ⟨t, rfl, hlt⟩))
        · left
          have hk2 : k ≠ k2 := fun h => hk h.symm
          rw [hg]
          show mapGet (mapDelete c.ttl k2) k = some e
          rw [mapGet_mapDelete_of_ne c.ttl k2 k hk2]
          exact he
      · left
        rw [hg]
        exact he

theorem C28_ghost_key_lookup_witness :
    (⟨⟨1, [("b", 2)]⟩, [("b", 20), ("a", 10)], 0⟩ : LRUCache Nat).Get 5 "a"
      = (⟨⟨1, [("b", 2)]⟩, [("b", 20), ("a", 10)], 0⟩, .error "key not found") :=
  (C28_ghost_key_lookup (⟨⟨1, [("b", 2)]⟩, [("b", 20), ("a", 10)], 0⟩ : LRUCache Nat)
    "a" 10 (by decide)).1 5 (by decide) (by decide)

/-- C29: in a well-formed cache whose recency store is full and holds `k`, let `c1` be
the state after `Delete(k)` or after a `Get(k)` that returned the Expired outcome.  The next
`Set` of a key that is not in the store of `c1` evicts nothing (the `Add` reports no
eviction), leaves the store with the new entry followed by the old entries other than
that of `k`, keeps every other key in the store, and every other key for which `Get`
returned a value before returns the same value at the same instant afterwards. -/
theorem C29_removal_frees_a_slot (c : LRUCache V) (hwf : WellFormed c)
    (hfull : c.cache.Len = c.cache.size) (k : String) (hk : k ∈ c.cache.keys)
    (c1 : LRUCache V)
    (hc1 : c1 = c.Delete k ∨ ∃ now, c.Get now k = (c1, .error "cache expired"))
    (t : Time) (k2 : String) (v : V) (d : Duration) (hk2 : k2 ∉ c1.cache.keys) :
    (c1.cache.Add k2 v).2 = false ∧
    (c1.Set t k2 v d).cache.items
      = (k2, v) :: c.cache.items.filter (fun e => decide (e.1 ≠ k)) ∧
    (∀ k', k' ≠ k → k' ∈ c.cache.keys → k' ∈ (c1.Set t k2 v d).cache.keys) ∧
    (∀ (k' : String) (now : Time) (w : V), k' ≠ k → (c.Get now k').2 = .ok w →
      ((c1.Set t k2 v d).Get now k').2 = .ok w) := by
  have hdel : c1 = c.Delete k := by
    rcases hc1 with h | ⟨now, h⟩
    · exact h
    · have hres : (c.Get now k).2 = .error "cache expired" := by rw [h]
      have := Get_expired_state c now k hres
      rw [h] at this
      exact (Prod.mk.inj this).1
  subst hdel
  obtain ⟨w0, hw0⟩ := (mem_mapKeys_iff c.cache.items k).1 hk
  have hlen := mapDelete_length_of_nodup c.cache.items k w0 hwf.cache_nodup hw0
  have hfull2 : c.cache.items.length = c.cache.size := hfull
  have hfresh : mapGet (c.Delete k).cache.items k2 = none :=
    (not_mem_mapKeys_iff _ k2).1 hk2
  have hroom : (c.Delete k).cache.items.length < (c.Delete k).cache.size := by
    show (mapDelete c.cache.items k).length < c.cache.size
    omega
  have hadd := lru_Add_room (c.Delete k).cache k2 v hfresh hroom
  have hitems : ((c.Delete k).Set t k2 v d).cache.items
      = (k2, v) :: mapDelete c.cache.items k := by
    show ((c.Delete k).cache.Add k2 v).1.items = _
    rw [hadd]
    rfl
  have hother : ∀ k', k' ≠ k → k' ∈ c.cache.keys → k' ≠ k2 := by
    intro k' hne hin heq
    apply hk2
    rw [← heq]
    exact (mem_mapKeys_mapDelete c.cache.items k k').2 ⟨hne, hin⟩
  refine ⟨by rw [hadd], hitems, ?_, ?_⟩
  · intro k' hne hin
    unfold lru.Cache.keys
    rw [hitems]
    simp only [mapKeys, List.map_cons, List.mem_cons]
    exact Or.inr ((mem_mapKeys_mapDelete c.cache.items k k').2 ⟨hne, hin⟩)
  · intro k' now w hne hget
    obtain ⟨e, he, hle, hc⟩ := (Get_ok_iff c now k' w).1 hget
    have hin : k' ∈ c.cache.keys := (mem_mapKeys_iff c.cache.items k').2 ⟨w, hc⟩
    have hne2 : k' ≠ k2 := hother k' hne hin
    have hne3 : ¬ k2 = k' := fun h => hne2 h.symm
    refine (Get_ok_iff _ now k' w).2 ⟨e, ?_, hle, ?_⟩
    · show mapGet (mapSet (mapDelete c.ttl k) k2 (t + d)) k' = some e
      rw [mapGet_mapSet]
      simp only [hne2, if_false]
      rw [mapGet_mapDelete_of_ne c.ttl k k' hne]
      exact he
    · rw [hitems]
      simp only [mapGet, hne3, if_false]
      rw [mapGet_mapDelete_of_ne c.cache.items k k' hne]
      exact hc

theorem C29_removal_frees_a_slot_witness :
    (((run (⟨⟨2, []⟩, [], 0⟩ : LRUCache Nat)
        [(0, .set "a" 1 10), (1, .set "b" 2 10)]).Delete "a").cache.Add "c" 3).2 = false ∧
    (((run (⟨⟨2, []⟩, [], 0⟩ : LRUCache Nat)
        [(0, .set "a" 1 10), (1, .set "b" 2 10)]).Delete "a").Set 2 "c" 3 10).cache.items
      = ("c", 3) :: (run (⟨⟨2, []⟩, [], 0⟩ : LRUCache Nat)
        [(0, .set "a" 1 10), (1, .set "b" 2 10)]).cache.items.filter
          (fun e => decide (e.1 ≠ "a")) :=
  ⟨(C29_removal_frees_a_slot
      (run (⟨⟨2, []⟩, [], 0⟩ : LRUCache Nat) [(0, .set "a" 1 10), (1, .set "b" 2 10)])
      (wellFormed_run _ _ (wellFormed_new 2 0 _ (by decide))) (by decide) "a" (by decide)
      _ (Or.inl rfl) 2 "c" 3 10 (by decide)).1,
    (C29_removal_frees_a_slot
      (run (⟨⟨2, []⟩, [], 0⟩ : LRUCache Nat) [(0, .set "a" 1 10), (1, .set "b" 2 10)])
      (wellFormed_run _ _ (wellFormed_new 2 0 _ (by decide))) (by decide) "a" (by decide)
      _ (Or.inl rfl) 2 "c" 3 10 (by decide)).2.1⟩

/-- C30: for every value that is not a string (the nil interface included) `NotEmpty`,
`MinLength(n)`, `MatchRegex` with any pattern and the validators built on `MatchRegex`
return a nil error; for every value that is not an `int`, such as an `int64` or a
`float64`, `MinValue(m)` and `MaxValue(m)` return a nil error; and `NotEmpty` returns an
error exactly for the empty string. -/
theorem C30_validators_accept_other_types (value : Value) :
    ((∀ s, value ≠ .string s) →
      NotEmpty value = .returned none ∧
      (∀ n, MinLength n value = .returned none) ∧
      (∀ pattern msg, MatchRegex value pattern msg = .returned none) ∧
      IsEmail value = .returned none ∧ IsPAN value = .returned none ∧
      IsAadhaar value = .returned none ∧ IsPassport value = .returned none ∧
      IsCreditCard value = .returned none ∧ IsPhoneNumber value = .returned none ∧
      IsAlpha value = .returned none ∧ IsAlphanumeric value = .returned none) ∧
    ((∀ n, value ≠ .int n) →
      ∀ m, MinValue m value = .returned none ∧ MaxValue m value = .returned none) ∧
    (∀ (m x : Int) (bits : Nat),
      MinValue m (.int64 x) = .returned none ∧ MaxValue m (.int64 x) = .returned none ∧
      MinValue m (.float64 bits) = .returned none ∧
      MaxValue m (.float64 bits) = .returned none) ∧
    ((∃ e, NotEmpty value = .returned (some e)) ↔ value = .string "") := by
  refine ⟨?_, ?_, fun _ _ _ => ⟨rfl, rfl, rfl, rfl⟩, ?_⟩
  · intro hs
    cases value with
    | string s => exact absurd rfl (hs s)
    | nil => exact ⟨rfl, fun _ => rfl, fun _ _ => rfl, rfl, rfl, rfl, rfl, rfl, rfl, rfl, rfl⟩
    | bool b => exact ⟨rfl, fun _ => rfl, fun _ _ => rfl, rfl, rfl, rfl, rfl, rfl, rfl, rfl, rfl⟩
    | int n => exact ⟨rfl, fun _ => rfl, fun _ _ => rfl, rfl, rfl, rfl, rfl, rfl, rfl, rfl, rfl⟩
    | int64 n => exact ⟨rfl, fun _ => rfl, fun _ _ => rfl, rfl, rfl, rfl, rfl, rfl, rfl, rfl, rfl⟩
    | float64 x =>
      exact ⟨rfl, fun _ => rfl, fun _ _ => rfl, rfl, rfl, rfl, rfl, rfl, rfl, rfl, rfl⟩
    | struct fs =>
      exact ⟨rfl, fun _ => rfl, fun _ _ => rfl, rfl, rfl, rfl, rfl, rfl, rfl, rfl, rfl⟩
    | ptr p => exact ⟨rfl, fun _ => rfl, fun _ _ => rfl, rfl, rfl, rfl, rfl, rfl, rfl, rfl, rfl⟩
    | embedded v =>
      exact ⟨rfl, fun _ => rfl, fun _ _ => rfl, rfl, rfl, rfl, rfl, rfl, rfl, rfl, rfl⟩
  · intro hi m
    cases value with
    | int n => exact absurd rfl (hi n)
    | nil => exact ⟨rfl, rfl⟩
    | bool b => exact ⟨rfl, rfl⟩
    | string s => exact ⟨rfl, rfl⟩
    | int64 n => exact ⟨rfl, rfl⟩
    | float64 x => exact ⟨rfl, rfl⟩
    | struct fs => exact ⟨rfl, rfl⟩
    | ptr p => exact ⟨rfl, rfl⟩
    | embedded v => exact ⟨rfl, rfl⟩
  · cases value with
    | string s =>
      unfold NotEmpty
      by_cases h : s = ""
      · simp [h]
      · simp [h]
    | nil => simp [NotEmpty]
    | bool b => simp [NotEmpty]
    | int n => simp [NotEmpty]
    | int64 n => simp [NotEmpty]
    | float64 x => simp [NotEmpty]
    | struct fs => simp [NotEmpty]
    | ptr p => simp [NotEmpty]
    | embedded v => simp [NotEmpty]

theorem C30_validators_accept_other_types_witness :
    NotEmpty .nil = .returned none ∧ IsEmail .nil = .returned none ∧
    MinLength 5 (.int 3) = .returned none ∧
    MinValue 18 (.int64 16) = .returned none ∧ MaxValue 18 (.string "99") = .returned none :=
  ⟨((C30_validators_accept_other_types .nil).1 (fun _ h => Value.noConfusion h)).1,
    ((C30_validators_accept_other_types .nil).1 (fun _ h => Value.noConfusion h)).2.2.2.1,
    ((C30_validators_accept_other_types (.int 3)).1
      (fun _ h => Value.noConfusion h)).2.1 5,
    ((C30_validators_accept_other_types (.int64 16)).2.1
      (fun _ h => Value.noConfusion h) 18).1,
    ((C30_validators_accept_other_types (.string "99")).2.1
      (fun _ h => Value.noConfusion h) 18).2⟩

end Golib
